import Mathlib

/-!
The any-sync bridge: event queues, dedup ledger and the change poller.

A shallow embedding of `tictactoe_anysync/go/anysync_bridge.go`.

* Go maps with string keys are functions `String → Option V` (`none` is an absent key).
* The process-wide variables (`gClient`, `callbacks`, `eventQueues`) are the fields of `World`,
  which is passed explicitly.  Three more fields of `World` are traces of calls that leave the
  process (`store.Set`, the decryptor handed out by `store.Iterate`, the C callbacks), so that
  "is called" / "is not called" can be stated.
* The `seen` map of the client is a `Finset String`: only its keys and its size are used.
* The body of the polling goroutine is `pollCycle`; what `store.Iterate` and the peer
  directory answer in a cycle is the cycle's input.
-/

namespace AnysyncBridge

/-! ## Go maps -/

/-- A Go map with string keys; `none` stands for an absent key. -/
abbrev GoMap (V : Type) := String → Option V

/-- The value of `make(map[string]V)`. -/
def GoMap.empty {V : Type} : GoMap V := fun _ => none

/-- The map after `m[k] = v`. -/
def GoMap.assign {V : Type} (m : GoMap V) (k : String) (v : V) : GoMap V :=
  fun j => if j = k then some v else m j

/-- The map after `delete(m, k)`. -/
def GoMap.delete {V : Type} (m : GoMap V) (k : String) : GoMap V :=
  fun j => if j = k then none else m j

/-- The value of `m[k]` for a map of slices: an absent key reads as the nil slice. -/
def GoMap.index (m : GoMap (List String)) (k : String) : List String :=
  (m k).getD []

/-! ## Data -/

/-- The fields of `innerstorage.KeyValue` that the bridge reads, and the stored value. -/
structure KeyValue where
  KeyPeerId : String
  TimestampMilli : Int
  Value : String
  deriving DecidableEq, Repr

/-- A `keyvaluestorage.Decryptor`: `none` is a returned error. -/
abbrev Decryptor := KeyValue → Option String

/-- A C function pointer `callback_t`, as its address. -/
abbrev Callback := Nat

/-- The key-value service kept in `kvSync`; `syncer` tells whether it has `SyncWithPeer`. -/
structure KvService where
  syncer : Bool
  deriving DecidableEq, Repr

/-- The fields of `bridgeClient` that the exported functions read or write.
`space` and `store` are handles (`none` is nil); `lastSync` is `none` for the zero time. -/
structure bridgeClient where
  space : Option String
  store : Option Nat
  kvSync : Option KvService
  seen : Finset String
  demoMode : Bool
  lastSync : Option Int
  peerCount : Int
  nodeHost : String
  nodePort : Int
  networkId : String

/-- The process-wide state and the traces of outgoing calls. -/
structure World where
  gClient : Option bridgeClient
  callbacks : GoMap Callback
  eventQueues : GoMap (List String)
  setCalls : List (String × String)
  decryptCalls : List KeyValue
  callbackCalls : List (Callback × String)

/-- The dedup ledger of the world: `gClient.seen`, empty when there is no client. -/
def World.ledger (w : World) : Finset String :=
  match w.gClient with
  | some c => c.seen
  | none => ∅

/-- The client made by `BridgeInitializeClient` in demo mode. -/
def demoClient : bridgeClient :=
  { space := none, store := none, kvSync := none, seen := ∅, demoMode := true,
    lastSync := none, peerCount := 0, nodeHost := "", nodePort := 0, networkId := "" }

/-- The client made by `BridgeInitializeClient` outside demo mode. -/
def freshClient (host : String) (port : Int) (network : String) : bridgeClient :=
  { space := none, store := none, kvSync := none, seen := ∅, demoMode := false,
    lastSync := none, peerCount := 0, nodeHost := host, nodePort := port, networkId := network }

/-- The state of the process variables at start-up. -/
def World.init : World :=
  { gClient := none, callbacks := GoMap.empty, eventQueues := GoMap.empty,
    setCalls := [], decryptCalls := [], callbackCalls := [] }

/-! ## Event queue retrieval -/

/-- What a caller reads from `C.CString(s)`: a C string ends at its first NUL byte, so the
bytes of `s` up to its first NUL. -/
def CString (s : String) : String :=
  String.mk (s.data.takeWhile (fun c => c != Char.ofNat 0))

/-- Whether a string holds no NUL byte, as every value of `C.GoString` does. -/
def nulFree (s : String) : Bool :=
  s.data.all (fun c => c != Char.ofNat 0)

/-- `BridgePollOperation`: the string the caller reads from the returned pointer (`none` is
the nil pointer) and the new state. -/
def BridgePollOperation (w : World) (id : String) : Option String × World :=
  let q := w.eventQueues.index id
  match q with
  | [] => (none, w)
  | msg :: rest =>
    if q.length = 1 then
      (some (CString msg), { w with eventQueues := w.eventQueues.delete id })
    else
      (some (CString msg), { w with eventQueues := w.eventQueues.assign id rest })

/-- The results of `n` successive calls of `BridgePollOperation` for `id`, and the final state. -/
def pollTimes : Nat → World → String → List (Option String) × World
  | 0, w, _ => ([], w)
  | n + 1, w, id =>
    let r := BridgePollOperation w id
    let rs := pollTimes n r.2 id
    (r.1 :: rs.1, rs.2)

/-! ## Submitting an operation -/

/-- `BridgeSendOperation`.  `unmarshalOk s` tells whether `json.Unmarshal` of `s` into a
`map[string]any` succeeds, `setOk key value` whether `store.Set` does. -/
def BridgeSendOperation (unmarshalOk : String → Bool) (setOk : String → String → Bool)
    (w : World) (spaceId operationJson : String) : Int × World :=
  match w.gClient with
  | none => (0, w)
  | some c =>
    if c.demoMode then
      let id := spaceId
      let msg := operationJson
      (1, { w with eventQueues := w.eventQueues.assign id (w.eventQueues.index id ++ [msg]) })
    else if c.store.isNone then (0, w)
    else
      let jsonData := operationJson
      if !unmarshalOk jsonData then (0, w)
      else
        let key := "moves"
        let w1 := { w with setCalls := w.setCalls ++ [(key, jsonData)] }
        if !setOk key jsonData then (0, w1) else (1, w1)

/-- `BridgeSetOperationCallback`. -/
def BridgeSetOperationCallback (w : World) (spaceId : String) (callback : Callback) : World :=
  { w with callbacks := w.callbacks.assign spaceId callback }

/-! ## The change poller -/

/-- The ledger key `fmt.Sprintf("%s:%d", v.KeyPeerId, v.TimestampMilli)`. -/
def fingerprint (v : KeyValue) : String :=
  v.KeyPeerId ++ ":" ++ toString v.TimestampMilli

/-- The body of `for _, v := range values` in the visitor, run by the goroutine of `space`.
The goroutine is started only when `gClient` is set, so without a client nothing happens. -/
def processValue (space : String) (dec : Decryptor) (w : World) (v : KeyValue) : World :=
  match w.gClient with
  | none => w
  | some c =>
    let kp := fingerprint v
    if kp ∈ c.seen then w
    else
      let seen1 := insert kp c.seen
      let seen2 := if seen1.card > 10000 then ∅ else seen1
      let w1 := { w with gClient := some { c with seen := seen2 },
                         decryptCalls := w.decryptCalls ++ [v] }
      match dec v with
      | none => w1
      | some data =>
        { w1 with eventQueues := w1.eventQueues.assign space (w1.eventQueues.index space ++ [data]) }

/-- The whole `for _, v := range values` loop. -/
def processValues (space : String) (dec : Decryptor) (w : World) (values : List KeyValue) :
    World :=
  values.foldl (processValue space dec) w

/-- The visitor passed to `store.Iterate`; its first result is the "go on" flag. -/
def visitor (space : String) (w : World) (dec : Decryptor) (key : String)
    (values : List KeyValue) : Bool × World :=
  if key ≠ "moves" then (true, w)
  else (true, processValues space dec w values)

/-- Modelled from the spec: `store.Iterate` of the key-value store, which is not part of the
repository.  It calls the visitor once for each stored key, with the values written under that
key by each contributing peer, and stops when the visitor answers `false`. -/
def Iterate (dec : Decryptor) (visit : World → Decryptor → String → List KeyValue → Bool × World) :
    List (String × List KeyValue) → World → World
  | [], w => w
  | (key, values) :: rest, w =>
    let r := visit w dec key values
    if r.1 then Iterate dec visit rest r.2 else r.2

/-- What the outside answers during one cycle of the goroutine: the stored entries met by
`store.Iterate`, the result of `GetNodePeers` (`none` is an error), whether `SyncWithPeer`
fails for a peer, and the clock. -/
structure CycleInput where
  entries : List (String × List KeyValue)
  peers : Option (List String)
  syncFails : String → Bool
  now : Int

/-- The scan of one cycle: `gClient.store.Iterate(ctx, visitor)`. -/
def scanStore (space : String) (dec : Decryptor) (w : World)
    (entries : List (String × List KeyValue)) : World :=
  Iterate dec (visitor space) entries w

/-- The body of `for _, p := range peers`: when the service has `SyncWithPeer` it is called,
its error is dropped, and the clock is stored in `lastSync`. -/
def syncWithPeer (inp : CycleInput) (c : bridgeClient) (_p : String) : bridgeClient :=
  match c.kvSync with
  | some s => if s.syncer then { c with lastSync := some inp.now } else c
  | none => c

/-- The opportunistic sync at the end of a cycle, on the client. -/
def opportunisticSync (c : bridgeClient) (inp : CycleInput) : bridgeClient :=
  if c.space.isSome ∧ c.kvSync.isSome then
    match inp.peers with
    | none => c
    | some peers => peers.foldl (syncWithPeer inp) { c with peerCount := peers.length }
  else c

/-- The opportunistic sync at the end of a cycle, on the world. -/
def syncStep (w : World) (inp : CycleInput) : World :=
  match w.gClient with
  | none => w
  | some c => { w with gClient := some (opportunisticSync c inp) }

/-- One iteration of the goroutine's `for` loop: the scan, then the sync. -/
def pollCycle (space : String) (dec : Decryptor) (w : World) (inp : CycleInput) : World :=
  syncStep (scanStore space dec w inp.entries) inp

/-- Successive iterations of the goroutine's loop. -/
def runCycles (space : String) (dec : Decryptor) (w : World) (cycles : List CycleInput) : World :=
  cycles.foldl (pollCycle space dec) w

/-- The values that a scan processes: those stored under the key `"moves"`, in order. -/
def movesValues : List (String × List KeyValue) → List KeyValue
  | [] => []
  | (key, values) :: rest =>
    if key = "moves" then values ++ movesValues rest else movesValues rest

/-! ## Counting deliveries and ledger resets -/

/-- Whether processing `v` appends an entry to the queue of `space`. -/
def appendsAt (space : String) (dec : Decryptor) (w : World) (v : KeyValue) : Bool :=
  decide ((processValue space dec w v).eventQueues.index space ≠ w.eventQueues.index space)

/-- Whether processing `v` resets the ledger: its fingerprint is new and recording it makes
the ledger hold more than 10,000 entries. -/
def resetsAt (w : World) (v : KeyValue) : Bool :=
  decide (fingerprint v ∉ w.ledger ∧ 10000 < (insert (fingerprint v) w.ledger).card)

/-- How many appends to the queue of `space` the fingerprint `k` causes while `values` are
processed from `w`. -/
def appendsIn (space : String) (dec : Decryptor) (k : String) : World → List KeyValue → Nat
  | _, [] => 0
  | w, v :: rest =>
    (if fingerprint v = k ∧ appendsAt space dec w v = true then 1 else 0)
      + appendsIn space dec k (processValue space dec w v) rest

/-- How many ledger resets happen while `values` are processed from `w`. -/
def resetsIn (space : String) (dec : Decryptor) : World → List KeyValue → Nat
  | _, [] => 0
  | w, v :: rest =>
    (if resetsAt w v = true then 1 else 0) + resetsIn space dec (processValue space dec w v) rest

/-- How many appends to the queue of `space` the fingerprint `k` causes over `cycles`. -/
def appendsOver (space : String) (dec : Decryptor) (k : String) : World → List CycleInput → Nat
  | _, [] => 0
  | w, c :: rest =>
    appendsIn space dec k w (movesValues c.entries)
      + appendsOver space dec k (pollCycle space dec w c) rest

/-- How many ledger resets happen over `cycles`. -/
def resetsOver (space : String) (dec : Decryptor) : World → List CycleInput → Nat
  | _, [] => 0
  | w, c :: rest =>
    resetsIn space dec w (movesValues c.entries)
      + resetsOver space dec (pollCycle space dec w c) rest

/-- One when `k` is not in the ledger, zero when it is: the deliveries of `k` still possible
before the next reset. -/
def pending (k : String) (w : World) : Nat :=
  if k ∈ w.ledger then 0 else 1

/-! ## Concrete inputs -/

/-- A client outside demo mode with an open space and an open store. -/
def openClient : bridgeClient :=
  { freshClient "node" 443 "net" with space := some "A", store := some 1,
                                      kvSync := some { syncer := true } }

/-- The start-up state with `openClient` as the client. -/
def openWorld : World := { World.init with gClient := some openClient }

/-- The start-up state with the demo-mode client. -/
def demoWorld : World := { World.init with gClient := some demoClient }

/-- A decryptor that succeeds with the stored value. -/
def plainDec : Decryptor := fun v => some v.Value

/-- A decryptor that always fails. -/
def failDec : Decryptor := fun _ => none

/-- A stand-in for `json.Unmarshal` into a map: it rejects the empty payload, as the real one
does ("unexpected end of JSON input"), and accepts every other payload. -/
def rejectsEmpty (s : String) : Bool := s != ""

/-- A `store.Set` that always succeeds. -/
def setAlwaysOk : String → String → Bool := fun _ _ => true

/-- One stored move, written by `peer1` at time 1. -/
def move1 : KeyValue := { KeyPeerId := "peer1", TimestampMilli := 1, Value := "move-1" }

/-- A cycle whose scan meets `move1` under "moves" (twice) and one value under another key,
with no peers to sync with. -/
def smallCycle : CycleInput :=
  { entries := [("moves", [move1, move1]), ("other", [move1])], peers := some [],
    syncFails := fun _ => false, now := 5 }

/-- The state `openWorld` with two entries queued for "A" and one for "B". -/
def queuedWorld : World :=
  { openWorld with
    eventQueues := ((GoMap.empty : GoMap (List String)).assign "A" ["x", "y"]).assign "B" ["z"] }

/-- The state `openWorld` with two entries queued for "A", the first holding a NUL byte after
its first character. -/
def nulWorld : World :=
  { openWorld with
    eventQueues := (GoMap.empty : GoMap (List String)).assign "A" ["a\x00b", "c"] }

/-- The state `openWorld` after a callback was registered for "A". -/
def callbackWorld : World := BridgeSetOperationCallback openWorld "A" 7

/-- The values written by `n` peers named a, aa, aaa, ..., all at time 0. -/
def manyPeers (n : Nat) : List KeyValue :=
  (List.range n).map
    (fun i => { KeyPeerId := String.mk (List.replicate (i + 1) 'a'), TimestampMilli := 0,
                Value := "op" })

/-- A cycle whose scan meets 10,001 values under "moves", one from each of 10,001 peers. -/
def fullCycle : CycleInput :=
  { entries := [("moves", manyPeers 10001)], peers := none, syncFails := fun _ => false, now := 0 }

/-- The payload of the end-to-end scenario, a JSON object with the fields move and player. -/
def moveXPayload : String := "\x7b\"move\":1,\"player\":\"X\"\x7d"

/-! ## Pushing a new space to the node peers -/

/-- A peer returned by `GetNodePeers`, with what it answers when contacted: whether
`AcquireDrpcConn` fails and whether `SpacePush` fails. -/
structure NodePeer where
  id : String
  acquireFails : Bool
  pushFails : Bool
  deriving DecidableEq, Repr

/-- A peer accepts the push when it can be reached and `SpacePush` returns no error. -/
def NodePeer.accepts (p : NodePeer) : Bool := !p.acquireFails && !p.pushFails

/-- The loop `for _, p := range peers` of `pushSpaceToNode`: whether it returned from inside
(a peer accepted), and the peers on which `AcquireDrpcConn` was called, in order. -/
def pushLoop : List NodePeer → Bool × List NodePeer
  | [] => (false, [])
  | p :: rest =>
    if p.acquireFails then ((pushLoop rest).1, p :: (pushLoop rest).2)
    else if p.pushFails then ((pushLoop rest).1, p :: (pushLoop rest).2)
    else (true, [p])

/-- `pushSpaceToNode`: the returned error (`none` is nil) and the peers contacted, in order.
`getNodePeers` is the result of `sp.GetNodePeers`, `description` the error of
`sp.Description` (`none` is success). -/
def pushSpaceToNode (getNodePeers : Except String (List NodePeer))
    (description : Option String) : Option String × List NodePeer :=
  match getNodePeers with
  | .error e => (some e, [])
  | .ok peers =>
    if peers.length = 0 then (none, [])
    else
      match description with
      | some e => (some e, [])
      | none =>
        if (pushLoop peers).1 then (none, (pushLoop peers).2)
        else (some "space push failed: no peer accepted", (pushLoop peers).2)

/-! ## Creating a space -/

/-- What the engine answers during `BridgeCreateSpace`: the clock, whether the two key
generations fail, the result of `CreateSpace` (`none` is an error), whether `NewSpace` and
`Init` fail, the result of `sp.KeyValue()` (`none` is nil) and of `kv.DefaultStore()`, and the
answers met by `pushSpaceToNode`. -/
structure CreateAnswers where
  nanos : Int
  masterKeyFails : Bool
  metaKeyFails : Bool
  createSpace : Option String
  newSpaceFails : Bool
  initFails : Bool
  keyValue : Option KvService
  defaultStore : Option Nat
  getNodePeers : Except String (List NodePeer)
  description : Option String

/-- `BridgeCreateSpace`: the returned identifier (empty on failure) and the new state.  The
result of `pushSpaceToNode` is only logged. -/
def BridgeCreateSpace (a : CreateAnswers) (w : World) : String × World :=
  match w.gClient with
  | none => ("", w)
  | some c =>
    if c.demoMode then ("demo-" ++ toString a.nanos, w)
    else if a.masterKeyFails then ("", w)
    else if a.metaKeyFails then ("", w)
    else
      match a.createSpace with
      | none => ("", w)
      | some id =>
        if a.newSpaceFails then ("", w)
        else if a.initFails then ("", w)
        else
          let c1 := { c with space := some id }
          match a.keyValue with
          | none => ("", { w with gClient := some c1 })
          | some kv =>
            let c2 := { c1 with store := a.defaultStore, kvSync := some kv }
            let _pushed := pushSpaceToNode a.getNodePeers a.description
            (id, { w with gClient := some c2 })

/-- A peer that accepts the push. -/
def goodPeer : NodePeer := { id := "n1", acquireFails := false, pushFails := false }

/-- A peer that cannot be reached. -/
def deadPeer : NodePeer := { id := "n0", acquireFails := true, pushFails := false }

/-- A client outside demo mode right after `BridgeInitializeClient`. -/
def startedWorld : World := { World.init with gClient := some (freshClient "node" 443 "net") }

/-- Engine answers where everything succeeds except that `sp.KeyValue()` is nil. -/
def noKeyValue : CreateAnswers :=
  { nanos := 0, masterKeyFails := false, metaKeyFails := false, createSpace := some "space-1",
    newSpaceFails := false, initFails := false, keyValue := none, defaultStore := none,
    getNodePeers := .ok [], description := none }

/-! ## The remaining entry points and the status -/

/-- `BridgeInitializeClient`.  `demoEnv` tells whether `ANYSYNC_DEMO_MODE` is "1",
`startFails` whether starting the any-sync app fails. -/
def BridgeInitializeClient (demoEnv startFails : Bool) (w : World) (host : String) (port : Int)
    (network : String) : Int × World :=
  if demoEnv then (1, { w with gClient := some demoClient })
  else if startFails then (0, w)
  else (1, { w with gClient := some (freshClient host port network) })

/-- What the engine answers during `BridgeJoinSpace`. -/
structure JoinAnswers where
  newSpaceFails : Bool
  initFails : Bool
  keyValue : Option KvService
  defaultStore : Option Nat

/-- `BridgeJoinSpace`.  The result is `none` when the call panics: `sp.KeyValue()` is used
without a nil check. -/
def BridgeJoinSpace (a : JoinAnswers) (w : World) (spaceId : String) : Option (Int × World) :=
  match w.gClient with
  | none => some (0, w)
  | some c =>
    if c.demoMode then some (1, w)
    else if a.newSpaceFails then some (0, w)
    else if a.initFails then some (0, w)
    else
      match a.keyValue with
      | none => none
      | some kv =>
        some (1, { w with gClient := some { c with space := some spaceId,
                                                   store := a.defaultStore,
                                                   kvSync := some kv } })

/-- `BridgeStartListening`: the returned code; the goroutine is started exactly when it is 1
and the client is not in demo mode. -/
def BridgeStartListening (w : World) (_spaceId : String) : Int :=
  match w.gClient with
  | none => 0
  | some c =>
    if c.demoMode then 1
    else if c.store.isNone then 0
    else 1

/-- The `status` struct that `BridgeGetStatus` serialises. -/
structure Status where
  spaceId : String
  peerCount : Int
  lastSyncMs : Int
  nodeHost : String
  nodePort : Int
  networkId : String
  connected : Bool
  deriving DecidableEq, Repr

/-- `BridgeGetStatus`, before the JSON encoding. -/
def BridgeGetStatus (w : World) : Status :=
  match w.gClient with
  | none =>
    { spaceId := "", peerCount := 0, lastSyncMs := 0, nodeHost := "", nodePort := 0,
      networkId := "", connected := false }
  | some c =>
    { spaceId := (match c.space with
                  | some id => id
                  | none => ""),
      peerCount := c.peerCount,
      lastSyncMs := (match c.lastSync with
                     | some t => t
                     | none => 0),
      nodeHost := c.nodeHost, nodePort := c.nodePort, networkId := c.networkId,
      connected := true }

/-- The calls of `SyncWithPeer` made by the opportunistic sync of a cycle, in order, each with
the flag telling whether it returned an error. -/
def syncCalls (c : bridgeClient) (inp : CycleInput) : List (String × Bool) :=
  if c.space.isSome ∧ c.kvSync.isSome then
    match inp.peers with
    | none => []
    | some peers =>
      match c.kvSync with
      | some s => if s.syncer then peers.map (fun p => (p, inp.syncFails p)) else []
      | none => []
  else []

/-- What can happen to the process: a call of an exported function, or one iteration of the
loop of a listening goroutine. -/
inductive Event where
  | startClient (demoEnv startFails : Bool) (host : String) (port : Int) (network : String)
  | createSpace (a : CreateAnswers)
  | joinSpace (a : JoinAnswers) (spaceId : String)
  | sendOperation (unmarshalOk : String → Bool) (setOk : String → String → Bool)
      (spaceId operationJson : String)
  | setCallback (spaceId : String) (callback : Callback)
  | startListening (spaceId : String)
  | pollOperation (spaceId : String)
  | getStatus
  | cycle (space : String) (dec : Decryptor) (inp : CycleInput)

/-- The state after an event; `none` when the process panics. -/
def exec (w : World) : Event → Option World
  | .startClient demoEnv startFails host port network =>
    some (BridgeInitializeClient demoEnv startFails w host port network).2
  | .createSpace a => some (BridgeCreateSpace a w).2
  | .joinSpace a spaceId => (BridgeJoinSpace a w spaceId).map (fun r => r.2)
  | .sendOperation unmarshalOk setOk spaceId operationJson =>
    some (BridgeSendOperation unmarshalOk setOk w spaceId operationJson).2
  | .setCallback spaceId callback => some (BridgeSetOperationCallback w spaceId callback)
  | .startListening _ => some w
  | .pollOperation spaceId => some (BridgePollOperation w spaceId).2
  | .getStatus => some w
  | .cycle space dec inp => some (pollCycle space dec w inp)

/-- The state after a sequence of events. -/
def run : World → List Event → Option World
  | w, [] => some w
  | w, e :: rest =>
    match exec w e with
    | none => none
    | some w1 => run w1 rest

/-- The calls of `SyncWithPeer` made by one event: those of the sync that follows the scan,
for a cycle, and none for the exported functions. -/
def eventSyncCalls (w : World) : Event → List (String × Bool)
  | .cycle space dec inp =>
    match (scanStore space dec w inp.entries).gClient with
    | some c => syncCalls c inp
    | none => []
  | _ => []

/-- The calls of `SyncWithPeer` made during a sequence of events. -/
def runSyncCalls : World → List Event → List (String × Bool)
  | _, [] => []
  | w, e :: rest =>
    match exec w e with
    | none => eventSyncCalls w e
    | some w1 => eventSyncCalls w e ++ runSyncCalls w1 rest

/-- The last-sync time of the client, `none` when it is the zero time or there is no client. -/
def World.lastSync (w : World) : Option Int :=
  match w.gClient with
  | some c => c.lastSync
  | none => none

/-- Engine answers where everything succeeds and the key-value service has `SyncWithPeer`. -/
def allOk : CreateAnswers :=
  { nanos := 0, masterKeyFails := false, metaKeyFails := false, createSpace := some "space-1",
    newSpaceFails := false, initFails := false, keyValue := some { syncer := true },
    defaultStore := some 1, getNodePeers := .ok [], description := none }

/-- A cycle with an empty store and one peer whose `SyncWithPeer` returns an error. -/
def failedSyncCycle : CycleInput :=
  { entries := [], peers := some ["n1"], syncFails := fun _ => true, now := 1700000000000 }

/-- A cycle with an empty store in which `GetNodePeers` fails. -/
def noPeersCycle : CycleInput :=
  { entries := [], peers := none, syncFails := fun _ => false, now := 1700000000000 }

/-- Start the client, create a space, start listening, then one cycle with a failing sync. -/
def failedSyncRun : List Event :=
  [.startClient false false "node" 443 "net", .createSpace allOk, .startListening "space-1",
   .cycle "space-1" plainDec failedSyncCycle]

/-- Start the client, create a space, start listening, then one cycle without peers. -/
def noSyncRun : List Event :=
  [.startClient false false "node" 443 "net", .createSpace allOk, .startListening "space-1",
   .cycle "space-1" plainDec noPeersCycle, .getStatus]

/-- The state at the end of `noSyncRun`. -/
def noSyncEnd : World :=
  pollCycle "space-1" plainDec
    (BridgeCreateSpace allOk (BridgeInitializeClient false false World.init "node" 443 "net").2).2
    noPeersCycle

/-! ## What a scan should deliver, in the words of the specification -/

/-- The values of a scan that are to be delivered, given the ledger `L` at the start of the
scan and the values `earlier` met before in the same scan: those whose fingerprint is not in
`L` and has not occurred earlier in the scan, in iteration order. -/
def newInScan (L : Finset String) : List KeyValue → List KeyValue → List KeyValue
  | _, [] => []
  | earlier, v :: rest =>
    if fingerprint v ∉ L ∧ fingerprint v ∉ earlier.map fingerprint then
      v :: newInScan L (earlier ++ [v]) rest
    else newInScan L (earlier ++ [v]) rest

/-- The payloads a scan over `entries` is to append: the decrypted payloads of the new values
stored under "moves" whose decrypt succeeds, in iteration order. -/
def scanPayloads (dec : Decryptor) (L : Finset String)
    (entries : List (String × List KeyValue)) : List String :=
  (newInScan L [] (movesValues entries)).filterMap dec

/-! ## Reading a decimal numeral back -/

/-- The value of a decimal digit character. -/
def digitValue (c : Char) : Nat := c.toNat - 48

/-- The number read from decimal digits, most significant first, continuing from `acc`. -/
def readDecimal (acc : Nat) (cs : List Char) : Nat :=
  cs.foldl (fun a c => a * 10 + digitValue c) acc

/-! ## Go maps: reading after writing -/

theorem index_assign_self (m : GoMap (List String)) (k : String) (v : List String) :
    (m.assign k v).index k = v := by
  simp [GoMap.index, GoMap.assign]

theorem index_assign_ne (m : GoMap (List String)) {j k : String} (v : List String) (h : j ≠ k) :
    (m.assign k v).index j = m.index j := by
  simp [GoMap.index, GoMap.assign, h]

theorem index_delete_self (m : GoMap (List String)) (k : String) :
    (m.delete k).index k = [] := by
  simp [GoMap.index, GoMap.delete]

theorem index_delete_ne (m : GoMap (List String)) {j k : String} (h : j ≠ k) :
    (m.delete k).index j = m.index j := by
  simp [GoMap.index, GoMap.delete, h]

/-! ## Event queue retrieval -/

theorem poll_nil (w : World) (id : String) (h : w.eventQueues.index id = []) :
    BridgePollOperation w id = (none, w) := by
  simp [BridgePollOperation, h]

theorem CString_of_nulFree (s : String) (h : nulFree s = true) : CString s = s := by
  unfold nulFree at h
  unfold CString
  have h2 : s.data.takeWhile (fun c => c != Char.ofNat 0) = s.data :=
    List.takeWhile_eq_self_iff.mpr (by simpa using h)
  rw [h2]

theorem poll_cons_fst (w : World) (id : String) (e : String) (rest : List String)
    (h : w.eventQueues.index id = e :: rest) :
    (BridgePollOperation w id).1 = some (CString e) := by
  unfold BridgePollOperation
  simp only [h]
  split <;> rfl

theorem poll_cons_index (w : World) (id : String) (e : String) (rest : List String)
    (h : w.eventQueues.index id = e :: rest) :
    (BridgePollOperation w id).2.eventQueues.index id = rest := by
  unfold BridgePollOperation
  simp only [h]
  split
  · rename_i h1
    have : rest = [] := by simpa using h1
    simp [index_delete_self, this]
  · simp [index_assign_self]

theorem poll_other (w : World) (id j : String) (hj : j ≠ id) :
    (BridgePollOperation w id).2.eventQueues j = w.eventQueues j := by
  rcases hq : w.eventQueues.index id with _ | ⟨e, rest⟩
  · rw [poll_nil w id hq]
  · unfold BridgePollOperation
    simp only [hq]
    split <;> simp [GoMap.delete, GoMap.assign, hj]

theorem poll_frame (w : World) (id : String) :
    (BridgePollOperation w id).2.gClient = w.gClient
      ∧ (BridgePollOperation w id).2.callbacks = w.callbacks
      ∧ (BridgePollOperation w id).2.setCalls = w.setCalls
      ∧ (BridgePollOperation w id).2.decryptCalls = w.decryptCalls
      ∧ (BridgePollOperation w id).2.callbackCalls = w.callbackCalls := by
  rcases hq : w.eventQueues.index id with _ | ⟨e, rest⟩
  · rw [poll_nil w id hq]
    simp
  · unfold BridgePollOperation
    simp only [hq]
    split <;> simp

theorem pollTimes_spec (id : String) (es : List String) :
    ∀ w : World, w.eventQueues.index id = es →
      (pollTimes es.length w id).1 = es.map (fun e => some (CString e))
        ∧ (pollTimes es.length w id).2.eventQueues.index id = []
        ∧ ∀ j, j ≠ id → (pollTimes es.length w id).2.eventQueues j = w.eventQueues j := by
  induction es with
  | nil =>
    intro w h
    simp [pollTimes, h]
  | cons e rest ih =>
    intro w h
    have h1 := poll_cons_fst w id e rest h
    have h2 := poll_cons_index w id e rest h
    obtain ⟨a, b, c⟩ := ih (BridgePollOperation w id).2 h2
    refine ⟨?_, ?_, ?_⟩
    · simp [pollTimes, h1, a]
    · simpa [pollTimes] using b
    · intro j hj
      simp only [List.length_cons, pollTimes]
      rw [c j hj, poll_other w id j hj]

theorem map_CString_of_nulFree (es : List String) (h : ∀ e ∈ es, nulFree e = true) :
    es.map (fun e => some (CString e)) = es.map some := by
  apply List.map_congr_left
  intro e he
  rw [CString_of_nulFree e (h e he)]

/-- C1 refuted: with the entries "a", NUL, "b" (one entry) and "c" queued for "A", two calls
of `BridgePollOperation` give the caller "a" and "c": the first entry arrives cut at its NUL
byte, not whole. -/
theorem C1_nul_entry_cut :
    nulWorld.eventQueues.index "A" = ["a\x00b", "c"]
      ∧ (pollTimes 2 nulWorld "A").1 = [some "a", some "c"]
      ∧ (pollTimes 2 nulWorld "A").1 ≠ (nulWorld.eventQueues.index "A").map some := by
  decide

/-- C1 as amended: for every state, space id and N ≥ 0, when the queue of the id holds
e1..eN, N calls of `BridgePollOperation` return e1, ..., eN in that order, each as the C
string made of it, that is cut at its first NUL byte, and whole when it holds no NUL byte;
the queue of the id is then empty, and a further call returns the absent result. -/
theorem C1_poll_fifo (w : World) (id : String) :
    (pollTimes (w.eventQueues.index id).length w id).1
        = (w.eventQueues.index id).map (fun e => some (CString e))
      ∧ ((∀ e ∈ w.eventQueues.index id, nulFree e = true) →
          (pollTimes (w.eventQueues.index id).length w id).1 = (w.eventQueues.index id).map some)
      ∧ (pollTimes (w.eventQueues.index id).length w id).2.eventQueues.index id = []
      ∧ (BridgePollOperation (pollTimes (w.eventQueues.index id).length w id).2 id).1 = none := by
  obtain ⟨a, b, _⟩ := pollTimes_spec id (w.eventQueues.index id) w rfl
  exact ⟨a, fun h => by rw [a, map_CString_of_nulFree _ h], b, by rw [poll_nil _ id b]⟩

/-- C2: for a space id whose queue is empty or was never written, `BridgePollOperation`
returns the absent result and leaves the whole state unchanged, with or without a client. -/
theorem C2_poll_empty (w : World) (id : String) (h : w.eventQueues.index id = []) :
    BridgePollOperation w id = (none, w) :=
  poll_nil w id h

/-- C2 at the start-up state, without a client, and at a state with a client. -/
theorem C2_poll_empty_witness :
    (World.init.eventQueues.index "A" = []
        ∧ BridgePollOperation World.init "A" = (none, World.init))
      ∧ (openWorld.eventQueues.index "A" = []
        ∧ BridgePollOperation openWorld "A" = (none, openWorld)) :=
  ⟨⟨rfl, C2_poll_empty World.init "A" rfl⟩, ⟨rfl, C2_poll_empty openWorld "A" rfl⟩⟩

/-- C3 refuted: with the entry "a", NUL, "b" at the head of the queue of "A", one call of
`BridgePollOperation` gives the caller "a", not the head itself, while the queue loses the
whole entry. -/
theorem C3_nul_head_cut :
    nulWorld.eventQueues.index "A" = "a\x00b" :: ["c"]
      ∧ (BridgePollOperation nulWorld "A").1 = some "a"
      ∧ (BridgePollOperation nulWorld "A").1 ≠ some "a\x00b"
      ∧ (BridgePollOperation nulWorld "A").2.eventQueues.index "A" = ["c"] := by
  decide

/-- C3 as amended: for a space id with a non-empty queue, one `BridgePollOperation` call
returns the head of that queue as the C string made of it, that is cut at its first NUL byte,
and whole when it holds no NUL byte; it removes exactly that one entry: the former tail stays
as the queue of the id, in order, and neither the queue of any other id nor anything else in
the state changes. -/
theorem C3_poll_removes_one (w : World) (id : String) (e : String) (rest : List String)
    (h : w.eventQueues.index id = e :: rest) :
    (BridgePollOperation w id).1 = some (CString e)
      ∧ (nulFree e = true → (BridgePollOperation w id).1 = some e)
      ∧ (BridgePollOperation w id).2.eventQueues.index id = rest
      ∧ (∀ j, j ≠ id → (BridgePollOperation w id).2.eventQueues j = w.eventQueues j)
      ∧ (BridgePollOperation w id).2.gClient = w.gClient
      ∧ (BridgePollOperation w id).2.callbacks = w.callbacks :=
  ⟨poll_cons_fst w id e rest h,
    fun hn => by rw [poll_cons_fst w id e rest h, CString_of_nulFree e hn],
    poll_cons_index w id e rest h,
    fun j hj => poll_other w id j hj, (poll_frame w id).1, (poll_frame w id).2.1⟩

/-- C3 as amended, at a state where "A" holds x, y and "B" holds z: polling "A" returns x,
leaves y for "A" and z for "B". -/
theorem C3_poll_removes_one_witness :
    queuedWorld.eventQueues.index "A" = "x" :: ["y"]
      ∧ (BridgePollOperation queuedWorld "A").1 = some "x"
      ∧ (BridgePollOperation queuedWorld "A").2.eventQueues.index "A" = ["y"]
      ∧ (BridgePollOperation queuedWorld "A").2.eventQueues "B" = queuedWorld.eventQueues "B" :=
  ⟨rfl, (C3_poll_removes_one queuedWorld "A" "x" ["y"] rfl).2.1 (by decide),
    (C3_poll_removes_one queuedWorld "A" "x" ["y"] rfl).2.2.1,
    (C3_poll_removes_one queuedWorld "A" "x" ["y"] rfl).2.2.2.1 "B" (by decide)⟩

/-! ## One step of the poller -/

theorem processValue_of_mem (space : String) (dec : Decryptor) (w : World) (v : KeyValue)
    (h : fingerprint v ∈ w.ledger) : processValue space dec w v = w := by
  unfold processValue
  unfold World.ledger at h
  cases hg : w.gClient with
  | none => rfl
  | some c =>
    rw [hg] at h
    simp only at h
    simp [h]

theorem processValue_no_client (space : String) (dec : Decryptor) (w : World) (v : KeyValue)
    (h : w.gClient = none) : processValue space dec w v = w := by
  unfold processValue
  rw [h]

theorem ledger_of_client {w : World} {c : bridgeClient} (h : w.gClient = some c) :
    w.ledger = c.seen := by
  unfold World.ledger
  rw [h]

/-- The step on a value with a new fingerprint, field by field. -/
theorem processValue_new (space : String) (dec : Decryptor) (w : World) (c : bridgeClient)
    (v : KeyValue) (hc : w.gClient = some c) (hnew : fingerprint v ∉ c.seen) :
    (processValue space dec w v).gClient
        = some { c with seen := if 10000 < (insert (fingerprint v) c.seen).card then ∅
                                else insert (fingerprint v) c.seen }
      ∧ (processValue space dec w v).decryptCalls = w.decryptCalls ++ [v]
      ∧ (processValue space dec w v).callbackCalls = w.callbackCalls
      ∧ (processValue space dec w v).callbacks = w.callbacks
      ∧ (processValue space dec w v).setCalls = w.setCalls
      ∧ (processValue space dec w v).eventQueues
          = (match dec v with
             | none => w.eventQueues
             | some data => w.eventQueues.assign space (w.eventQueues.index space ++ [data])) := by
  unfold processValue
  rw [hc]
  simp only [hnew, if_false, gt_iff_lt]
  cases dec v <;> simp

theorem ledger_processValue_new (space : String) (dec : Decryptor) (w : World) (c : bridgeClient)
    (v : KeyValue) (hc : w.gClient = some c) (hnew : fingerprint v ∉ c.seen) :
    (processValue space dec w v).ledger
      = if 10000 < (insert (fingerprint v) c.seen).card then ∅
        else insert (fingerprint v) c.seen := by
  rw [ledger_of_client (processValue_new space dec w c v hc hnew).1]

theorem resetsAt_of_card {w : World} {c : bridgeClient} {v : KeyValue}
    (hc : w.gClient = some c) (hnew : fingerprint v ∉ c.seen)
    (hlt : 10000 < (insert (fingerprint v) c.seen).card) : resetsAt w v = true := by
  unfold resetsAt
  rw [ledger_of_client hc]
  exact decide_eq_true ⟨hnew, hlt⟩

/-- A step counted as a reset leaves the ledger empty. -/
theorem ledger_empty_of_reset (space : String) (dec : Decryptor) (w : World) (v : KeyValue)
    (h : resetsAt w v = true) : (processValue space dec w v).ledger = ∅ := by
  unfold resetsAt at h
  have h2 := of_decide_eq_true h
  cases hg : w.gClient with
  | none =>
    rw [processValue_no_client space dec w v hg]
    simp [World.ledger, hg]
  | some c =>
    rw [ledger_of_client hg] at h2
    rw [ledger_processValue_new space dec w c v hg h2.1, if_pos h2.2]

/-- A step not counted as a reset forgets nothing: the ledger can only grow. -/
theorem ledger_mono_of_no_reset (space : String) (dec : Decryptor) (w : World) (v : KeyValue)
    (h : resetsAt w v = false) : w.ledger ⊆ (processValue space dec w v).ledger := by
  by_cases hm : fingerprint v ∈ w.ledger
  · rw [processValue_of_mem space dec w v hm]
  · cases hg : w.gClient with
    | none => rw [processValue_no_client space dec w v hg]
    | some c =>
      have hm2 : fingerprint v ∉ c.seen := by rw [← ledger_of_client hg]; exact hm
      have hle : ¬ 10000 < (insert (fingerprint v) c.seen).card := by
        intro hlt
        have := resetsAt_of_card hg hm2 hlt
        rw [h] at this
        exact Bool.false_ne_true this
      rw [ledger_processValue_new space dec w c v hg hm2, if_neg hle, ledger_of_client hg]
      exact Finset.subset_insert _ _

theorem appendsAt_iff (space : String) (dec : Decryptor) (w : World) (v : KeyValue) :
    appendsAt space dec w v = true
      ↔ w.gClient.isSome ∧ fingerprint v ∉ w.ledger ∧ (dec v).isSome := by
  unfold appendsAt
  cases hg : w.gClient with
  | none => simp [processValue_no_client space dec w v hg]
  | some c =>
    by_cases hm : fingerprint v ∈ c.seen
    · have hm2 : fingerprint v ∈ w.ledger := by rw [ledger_of_client hg]; exact hm
      simp [processValue_of_mem space dec w v hm2, hm2]
    · have hm2 : fingerprint v ∉ w.ledger := by rw [ledger_of_client hg]; exact hm
      have hq := (processValue_new space dec w c v hg hm).2.2.2.2.2
      rw [hq]
      cases hd : dec v with
      | none => simp
      | some data => simp [index_assign_self, hm2]

theorem step_pending (space : String) (dec : Decryptor) (k : String) (w : World) (v : KeyValue) :
    (if fingerprint v = k ∧ appendsAt space dec w v = true then 1 else 0)
        + pending k (processValue space dec w v)
      ≤ (if resetsAt w v = true then 1 else 0) + pending k w := by
  cases hg : w.gClient with
  | none =>
    have ha : ¬ (appendsAt space dec w v = true) := by
      rw [appendsAt_iff, hg]; simp
    simp [processValue_no_client space dec w v hg, ha]
  | some c =>
    by_cases hm : fingerprint v ∈ w.ledger
    · have ha : ¬ (appendsAt space dec w v = true) := by
        rw [appendsAt_iff]; simp [hm]
      simp [processValue_of_mem space dec w v hm, ha]
    · have hm2 : fingerprint v ∉ c.seen := by rw [← ledger_of_client hg]; exact hm
      have hl := ledger_processValue_new space dec w c v hg hm2
      have hw : w.ledger = c.seen := ledger_of_client hg
      unfold pending resetsAt
      rw [hl, hw]
      by_cases hr : 10000 < (insert (fingerprint v) c.seen).card
      · simp only [hr, if_true, hm2, not_false_eq_true, and_self, decide_True,
          Finset.not_mem_empty, if_false]
        by_cases hk : fingerprint v = k
        · subst hk
          simp only [hm2, if_false]
          split <;> omega
        · simp only [hk, false_and, if_false]
          split <;> omega
      · simp only [hr, if_false, and_false, decide_False, Bool.false_eq_true]
        by_cases hk : fingerprint v = k
        · subst hk
          simp only [hm2, if_false, Finset.mem_insert_self, if_true]
          split <;> omega
        · have hk2 : k ≠ fingerprint v := fun h => hk h.symm
          simp only [hk, false_and, if_false, Finset.mem_insert, hk2, false_or]
          omega

/-! ## Scans and cycles -/

theorem processValues_nil (space : String) (dec : Decryptor) (w : World) :
    processValues space dec w [] = w := rfl

theorem processValues_cons (space : String) (dec : Decryptor) (w : World) (v : KeyValue)
    (rest : List KeyValue) :
    processValues space dec w (v :: rest)
      = processValues space dec (processValue space dec w v) rest := rfl

theorem processValues_append (space : String) (dec : Decryptor) (w : World)
    (xs ys : List KeyValue) :
    processValues space dec w (xs ++ ys)
      = processValues space dec (processValues space dec w xs) ys := by
  simp [processValues, List.foldl_append]

/-- A scan processes the values stored under "moves", in order, and nothing else. -/
theorem scanStore_eq (space : String) (dec : Decryptor) (entries : List (String × List KeyValue)) :
    ∀ w : World, scanStore space dec w entries = processValues space dec w (movesValues entries) := by
  induction entries with
  | nil => intro w; rfl
  | cons e rest ih =>
    intro w
    obtain ⟨key, values⟩ := e
    have ih2 := fun w1 => ih w1
    unfold scanStore at ih2 ⊢
    by_cases hk : key = "moves"
    · simp [Iterate, visitor, movesValues, hk, ih2, processValues_append]
    · simp [Iterate, visitor, movesValues, hk, ih2]

theorem syncStep_frame (w : World) (inp : CycleInput) :
    (syncStep w inp).eventQueues = w.eventQueues
      ∧ (syncStep w inp).callbacks = w.callbacks
      ∧ (syncStep w inp).setCalls = w.setCalls
      ∧ (syncStep w inp).decryptCalls = w.decryptCalls
      ∧ (syncStep w inp).callbackCalls = w.callbackCalls := by
  unfold syncStep
  cases w.gClient <;> simp

theorem syncWithPeer_seen (inp : CycleInput) (c : bridgeClient) (p : String) :
    (syncWithPeer inp c p).seen = c.seen := by
  unfold syncWithPeer
  cases c.kvSync with
  | none => rfl
  | some s => by_cases hs : s.syncer <;> simp [hs]

theorem foldl_syncWithPeer_seen (inp : CycleInput) (ps : List String) :
    ∀ c : bridgeClient, (ps.foldl (syncWithPeer inp) c).seen = c.seen := by
  induction ps with
  | nil => intro c; rfl
  | cons p ps ih =>
    intro c
    rw [List.foldl_cons, ih, syncWithPeer_seen]

theorem opportunisticSync_seen (c : bridgeClient) (inp : CycleInput) :
    (opportunisticSync c inp).seen = c.seen := by
  unfold opportunisticSync
  split
  · cases inp.peers with
    | none => rfl
    | some peers => simp [foldl_syncWithPeer_seen]
  · rfl

theorem syncStep_ledger (w : World) (inp : CycleInput) : (syncStep w inp).ledger = w.ledger := by
  unfold syncStep World.ledger
  cases hg : w.gClient with
  | none => simp [hg]
  | some c => simp [opportunisticSync_seen]

theorem syncStep_client (w : World) (inp : CycleInput) :
    (syncStep w inp).gClient.isSome = w.gClient.isSome := by
  unfold syncStep
  cases hg : w.gClient <;> simp [hg]

theorem pending_syncStep (k : String) (w : World) (inp : CycleInput) :
    pending k (syncStep w inp) = pending k w := by
  unfold pending
  rw [syncStep_ledger]

theorem pollCycle_eq (space : String) (dec : Decryptor) (w : World) (inp : CycleInput) :
    pollCycle space dec w inp
      = syncStep (processValues space dec w (movesValues inp.entries)) inp := by
  unfold pollCycle
  rw [scanStore_eq]

theorem runCycles_cons (space : String) (dec : Decryptor) (w : World) (c : CycleInput)
    (rest : List CycleInput) :
    runCycles space dec w (c :: rest) = runCycles space dec (pollCycle space dec w c) rest := rfl

/-- Over processed values: deliveries of `k` plus what is still pending afterwards are bounded
by the resets plus what was pending before. -/
theorem values_pending (space : String) (dec : Decryptor) (k : String) (vs : List KeyValue) :
    ∀ w : World,
      appendsIn space dec k w vs + pending k (processValues space dec w vs)
        ≤ resetsIn space dec w vs + pending k w := by
  induction vs with
  | nil => intro w; simp [appendsIn, resetsIn, processValues]
  | cons v rest ih =>
    intro w
    have h1 := step_pending space dec k w v
    have h2 := ih (processValue space dec w v)
    rw [processValues_cons]
    simp only [appendsIn, resetsIn]
    omega

/-- The same bound over whole cycles. -/
theorem cycles_pending (space : String) (dec : Decryptor) (k : String) (cycles : List CycleInput) :
    ∀ w : World,
      appendsOver space dec k w cycles + pending k (runCycles space dec w cycles)
        ≤ resetsOver space dec w cycles + pending k w := by
  induction cycles with
  | nil => intro w; simp [appendsOver, resetsOver, runCycles]
  | cons c rest ih =>
    intro w
    have h1 := values_pending space dec k (movesValues c.entries) w
    have h2 := ih (pollCycle space dec w c)
    have h3 : pending k (pollCycle space dec w c)
        = pending k (processValues space dec w (movesValues c.entries)) := by
      rw [pollCycle_eq, pending_syncStep]
    rw [runCycles_cons]
    simp only [appendsOver, resetsOver]
    omega

theorem pending_le_one (k : String) (w : World) : pending k w ≤ 1 := by
  unfold pending
  split <;> omega

/-- C4: over every sequence of cycles with no ledger reset, a fingerprint causes at most one
append to the queue, and a fingerprint that is already in the ledger causes none, whether it
comes back in the same scan or in a later one. -/
theorem C4_at_most_one_append (space : String) (dec : Decryptor) (w : World)
    (cycles : List CycleInput) (k : String)
    (hreset : resetsOver space dec w cycles = 0) :
    appendsOver space dec k w cycles ≤ 1
      ∧ (k ∈ w.ledger → appendsOver space dec k w cycles = 0) := by
  have h := cycles_pending space dec k cycles w
  have h1 := pending_le_one k w
  refine ⟨by omega, ?_⟩
  intro hk
  have h2 : pending k w = 0 := by simp [pending, hk]
  omega

/-- C4 at two cycles that each meet `move1` twice: no reset happens and the fingerprint of
`move1` causes at most one append. -/
theorem C4_at_most_one_append_witness :
    resetsOver "A" plainDec openWorld [smallCycle, smallCycle] = 0
      ∧ appendsOver "A" plainDec "peer1:1" openWorld [smallCycle, smallCycle] ≤ 1 :=
  ⟨by decide,
    (C4_at_most_one_append "A" plainDec openWorld [smallCycle, smallCycle] "peer1:1"
      (by decide)).1⟩

/-! ## Callbacks -/

theorem processValue_callbackCalls (space : String) (dec : Decryptor) (w : World) (v : KeyValue) :
    (processValue space dec w v).callbackCalls = w.callbackCalls
      ∧ (processValue space dec w v).callbacks = w.callbacks := by
  cases hg : w.gClient with
  | none => rw [processValue_no_client space dec w v hg]; exact ⟨rfl, rfl⟩
  | some c =>
    by_cases hm : fingerprint v ∈ c.seen
    · rw [processValue_of_mem space dec w v (by rw [ledger_of_client hg]; exact hm)]
      exact ⟨rfl, rfl⟩
    · have h := processValue_new space dec w c v hg hm
      exact ⟨h.2.2.1, h.2.2.2.1⟩

theorem processValues_callbackCalls (space : String) (dec : Decryptor) (vs : List KeyValue) :
    ∀ w : World, (processValues space dec w vs).callbackCalls = w.callbackCalls
      ∧ (processValues space dec w vs).callbacks = w.callbacks := by
  induction vs with
  | nil => intro w; exact ⟨rfl, rfl⟩
  | cons v rest ih =>
    intro w
    rw [processValues_cons]
    have h1 := ih (processValue space dec w v)
    have h2 := processValue_callbackCalls space dec w v
    exact ⟨h1.1.trans h2.1, h1.2.trans h2.2⟩

theorem runCycles_callbackCalls (space : String) (dec : Decryptor) (cycles : List CycleInput) :
    ∀ w : World, (runCycles space dec w cycles).callbackCalls = w.callbackCalls
      ∧ (runCycles space dec w cycles).callbacks = w.callbacks := by
  induction cycles with
  | nil => intro w; exact ⟨rfl, rfl⟩
  | cons c rest ih =>
    intro w
    rw [runCycles_cons]
    have h1 := ih (pollCycle space dec w c)
    have h2 := processValues_callbackCalls space dec (movesValues c.entries) w
    have h3 := syncStep_frame (processValues space dec w (movesValues c.entries)) c
    rw [pollCycle_eq] at h1
    rw [pollCycle_eq]
    exact ⟨h1.1.trans (h3.2.2.2.2.trans h2.1), h1.2.trans (h3.2.1.trans h2.2)⟩

/-- What the poller does with a newly seen value whose decrypt succeeds: the payload is
appended to the queue of the space, and no step and no sequence of cycles adds a callback
invocation to the trace, whatever the registry holds. -/
theorem delivery_reaches_queue_only (space : String) (dec : Decryptor) (w : World) (c : bridgeClient)
    (v : KeyValue) (data : String)
    (hc : w.gClient = some c) (hnew : fingerprint v ∉ c.seen) (hdec : dec v = some data) :
    (processValue space dec w v).eventQueues.index space = w.eventQueues.index space ++ [data]
      ∧ (processValue space dec w v).callbackCalls = w.callbackCalls
      ∧ (∀ cycles : List CycleInput,
          (runCycles space dec w cycles).callbackCalls = w.callbackCalls
            ∧ (runCycles space dec w cycles).callbacks = w.callbacks) := by
  have h := processValue_new space dec w c v hc hnew
  refine ⟨?_, h.2.2.1, fun cycles => runCycles_callbackCalls space dec cycles w⟩
  rw [h.2.2.2.2.2, hdec]
  simp [index_assign_self]

/-- C5, the failing input: with a callback registered for "A" through
`BridgeSetOperationCallback`, a cycle of the poller of "A" meets the new value `move1`, whose
decrypt succeeds; the payload is appended to the queue of "A", and the callback is not
invoked with it. -/
theorem C5_callback_not_invoked :
    callbackWorld.callbacks "A" = some 7
      ∧ fingerprint move1 ∉ callbackWorld.ledger
      ∧ plainDec move1 = some "move-1"
      ∧ (pollCycle "A" plainDec callbackWorld smallCycle).eventQueues.index "A" = ["move-1"]
      ∧ (pollCycle "A" plainDec callbackWorld smallCycle).callbackCalls = [] := by
  decide

/-! ## Submitting an operation -/

/-- C6 as amended: for a client that is not in demo mode and a payload that does not decode
as a JSON object, `BridgeSendOperation` returns 0 and changes nothing: `store.Set` is not
called and no queue gets an entry. -/
theorem C6_malformed_rejected (unmarshalOk : String → Bool) (setOk : String → String → Bool)
    (w : World) (c : bridgeClient) (spaceId operationJson : String)
    (hc : w.gClient = some c) (hdemo : c.demoMode = false)
    (hbad : unmarshalOk operationJson = false) :
    BridgeSendOperation unmarshalOk setOk w spaceId operationJson = (0, w) := by
  unfold BridgeSendOperation
  rw [hc]
  simp only [hdemo, hbad]
  cases c.store <;> simp

/-- C6 refuted: in demo mode the empty payload, which does not decode, is accepted:
`BridgeSendOperation` returns 1 and appends it to the queue of the space. -/
theorem C6_demo_accepts_malformed :
    demoWorld.gClient = some demoClient
      ∧ rejectsEmpty "" = false
      ∧ (BridgeSendOperation rejectsEmpty setAlwaysOk demoWorld "A" "").1 = 1
      ∧ (BridgeSendOperation rejectsEmpty setAlwaysOk demoWorld "A" "").2.eventQueues.index "A"
          = [""] :=
  ⟨rfl, by decide, by decide, by decide⟩

/-- C6 as amended, at the empty payload and a client outside demo mode. -/
theorem C6_malformed_rejected_witness :
    openWorld.gClient = some openClient
      ∧ openClient.demoMode = false
      ∧ rejectsEmpty "" = false
      ∧ BridgeSendOperation rejectsEmpty setAlwaysOk openWorld "A" "" = (0, openWorld) :=
  ⟨rfl, rfl, rfl,
    C6_malformed_rejected rejectsEmpty setAlwaysOk openWorld openClient "A" "" rfl rfl rfl⟩

/-! ## Decrypt failures -/

theorem resetsIn_cons_zero {space : String} {dec : Decryptor} {w : World} {v : KeyValue}
    {rest : List KeyValue} (h : resetsIn space dec w (v :: rest) = 0) :
    resetsAt w v = false ∧ resetsIn space dec (processValue space dec w v) rest = 0 := by
  simp only [resetsIn] at h
  constructor
  · by_cases hr : resetsAt w v = true
    · simp [hr] at h
    · simpa using hr
  · omega

theorem step_no_retry (space : String) (dec : Decryptor) (k : String) (w : World) (v : KeyValue)
    (hk : k ∈ w.ledger) (hr : resetsAt w v = false) :
    k ∈ (processValue space dec w v).ledger
      ∧ ∃ extra, (processValue space dec w v).decryptCalls = w.decryptCalls ++ extra
          ∧ ∀ x ∈ extra, fingerprint x ≠ k := by
  by_cases hm : fingerprint v ∈ w.ledger
  · rw [processValue_of_mem space dec w v hm]
    exact ⟨hk, [], by simp, by simp⟩
  · cases hg : w.gClient with
    | none => simp [World.ledger, hg] at hk
    | some c =>
      have hw := ledger_of_client hg
      have hm2 : fingerprint v ∉ c.seen := by rw [← hw]; exact hm
      have hcard : ¬ 10000 < (insert (fingerprint v) c.seen).card := by
        intro hlt
        have : resetsAt w v = true := resetsAt_of_card hg hm2 hlt
        rw [hr] at this
        exact Bool.false_ne_true this
      have hl := ledger_processValue_new space dec w c v hg hm2
      have hd := (processValue_new space dec w c v hg hm2).2.1
      refine ⟨?_, [v], hd, ?_⟩
      · rw [hl, if_neg hcard, ← hw]
        exact Finset.mem_insert_of_mem hk
      · intro x hx
        simp only [List.mem_singleton] at hx
        subst hx
        intro heq
        exact hm (heq ▸ hk)

theorem values_no_retry (space : String) (dec : Decryptor) (k : String) (vs : List KeyValue) :
    ∀ w : World, k ∈ w.ledger → resetsIn space dec w vs = 0 →
      k ∈ (processValues space dec w vs).ledger
        ∧ ∃ extra, (processValues space dec w vs).decryptCalls = w.decryptCalls ++ extra
            ∧ ∀ x ∈ extra, fingerprint x ≠ k := by
  induction vs with
  | nil => intro w hk _; exact ⟨hk, [], by simp [processValues], by simp⟩
  | cons v rest ih =>
    intro w hk hr
    obtain ⟨hr1, hr2⟩ := resetsIn_cons_zero hr
    obtain ⟨hk1, e1, he1, hx1⟩ := step_no_retry space dec k w v hk hr1
    obtain ⟨hk2, e2, he2, hx2⟩ := ih (processValue space dec w v) hk1 hr2
    refine ⟨hk2, e1 ++ e2, ?_, ?_⟩
    · rw [processValues_cons, he2, he1, List.append_assoc]
    · intro x hx
      rcases List.mem_append.mp hx with h | h
      · exact hx1 x h
      · exact hx2 x h

theorem cycles_no_retry (space : String) (dec : Decryptor) (k : String)
    (cycles : List CycleInput) :
    ∀ w : World, k ∈ w.ledger → resetsOver space dec w cycles = 0 →
      k ∈ (runCycles space dec w cycles).ledger
        ∧ ∃ extra, (runCycles space dec w cycles).decryptCalls = w.decryptCalls ++ extra
            ∧ ∀ x ∈ extra, fingerprint x ≠ k := by
  induction cycles with
  | nil => intro w hk _; exact ⟨hk, [], by simp [runCycles], by simp⟩
  | cons c rest ih =>
    intro w hk hr
    simp only [resetsOver] at hr
    have hr1 : resetsIn space dec w (movesValues c.entries) = 0 := by omega
    have hr2 : resetsOver space dec (pollCycle space dec w c) rest = 0 := by omega
    obtain ⟨hk1, e1, he1, hx1⟩ := values_no_retry space dec k (movesValues c.entries) w hk hr1
    have hk1' : k ∈ (pollCycle space dec w c).ledger := by
      rw [pollCycle_eq, syncStep_ledger]; exact hk1
    have he1' : (pollCycle space dec w c).decryptCalls = w.decryptCalls ++ e1 := by
      rw [pollCycle_eq, (syncStep_frame _ c).2.2.2.1]; exact he1
    obtain ⟨hk2, e2, he2, hx2⟩ := ih (pollCycle space dec w c) hk1' hr2
    refine ⟨hk2, e1 ++ e2, ?_, ?_⟩
    · rw [runCycles_cons, he2, he1', List.append_assoc]
    · intro x hx
      rcases List.mem_append.mp hx with h | h
      · exact hx1 x h
      · exact hx2 x h

/-- C7: for a value with a new fingerprint whose decrypt fails, the poller records the
fingerprint (under the size cap of the ledger), calls the decryptor once, appends nothing to
any queue and goes on with the remaining values; and as long as no ledger reset happens, at
this value or later, no later cycle (the rest of this scan counted as one) calls the decryptor
again for a value with that fingerprint. -/
theorem C7_decrypt_failure_dropped (space : String) (dec : Decryptor) (w : World)
    (c : bridgeClient) (v : KeyValue)
    (hc : w.gClient = some c) (hnew : fingerprint v ∉ c.seen) (hdec : dec v = none) :
    (processValue space dec w v).ledger
        = (if 10000 < (insert (fingerprint v) c.seen).card then ∅
           else insert (fingerprint v) c.seen)
      ∧ (processValue space dec w v).decryptCalls = w.decryptCalls ++ [v]
      ∧ (processValue space dec w v).eventQueues = w.eventQueues
      ∧ (∀ rest : List KeyValue,
          (visitor space w dec "moves" (v :: rest)).1 = true
            ∧ (visitor space w dec "moves" (v :: rest)).2
                = processValues space dec (processValue space dec w v) rest)
      ∧ (∀ later : List CycleInput,
          resetsAt w v = false →
          resetsOver space dec (processValue space dec w v) later = 0 →
          ∀ x ∈ ((runCycles space dec (processValue space dec w v) later).decryptCalls).drop
                  (processValue space dec w v).decryptCalls.length,
            fingerprint x ≠ fingerprint v) := by
  have h := processValue_new space dec w c v hc hnew
  refine ⟨ledger_processValue_new space dec w c v hc hnew, h.2.1, ?_, ?_, ?_⟩
  · rw [h.2.2.2.2.2, hdec]
  · intro rest
    simp [visitor, processValues_cons]
  · intro later hr0 hr x hx
    have hm : fingerprint v ∉ w.ledger := by rw [ledger_of_client hc]; exact hnew
    have hk : fingerprint v ∈ (processValue space dec w v).ledger := by
      have hcard : ¬ 10000 < (insert (fingerprint v) c.seen).card := by
        intro hlt
        have : resetsAt w v = true := resetsAt_of_card hc hnew hlt
        rw [hr0] at this
        exact Bool.false_ne_true this
      rw [ledger_processValue_new space dec w c v hc hnew, if_neg hcard]
      exact Finset.mem_insert_self _ _
    obtain ⟨_, extra, he, hx2⟩ :=
      cycles_no_retry space dec (fingerprint v) later (processValue space dec w v) hk hr
    rw [he, List.drop_left] at hx
    exact hx2 x hx

/-- C7 at `move1` with a decryptor that fails: the fingerprint is in the ledger afterwards,
the queues are unchanged and two later cycles do not call the decryptor for it again. -/
theorem C7_decrypt_failure_dropped_witness :
    openWorld.gClient = some openClient
      ∧ fingerprint move1 ∉ openClient.seen
      ∧ failDec move1 = none
      ∧ (processValue "A" failDec openWorld move1).ledger
          = (if 10000 < (insert (fingerprint move1) openClient.seen).card then ∅
             else insert (fingerprint move1) openClient.seen)
      ∧ (processValue "A" failDec openWorld move1).eventQueues = openWorld.eventQueues
      ∧ (∀ x ∈ ((runCycles "A" failDec (processValue "A" failDec openWorld move1)
                    [smallCycle, smallCycle]).decryptCalls).drop
                (processValue "A" failDec openWorld move1).decryptCalls.length,
          fingerprint x ≠ fingerprint move1) :=
  ⟨rfl, by decide, rfl,
    (C7_decrypt_failure_dropped "A" failDec openWorld openClient move1 rfl (by decide) rfl).1,
    (C7_decrypt_failure_dropped "A" failDec openWorld openClient move1 rfl (by decide) rfl).2.2.1,
    (C7_decrypt_failure_dropped "A" failDec openWorld openClient move1 rfl (by decide)
      rfl).2.2.2.2 [smallCycle, smallCycle] (by decide) (by decide)⟩

/-! ## The size of the ledger -/

theorem step_card (space : String) (dec : Decryptor) (w : World) (v : KeyValue)
    (h : w.ledger.card ≤ 10000) : (processValue space dec w v).ledger.card ≤ 10000 := by
  by_cases hm : fingerprint v ∈ w.ledger
  · rw [processValue_of_mem space dec w v hm]; exact h
  · cases hg : w.gClient with
    | none => rw [processValue_no_client space dec w v hg]; exact h
    | some c =>
      have hm2 : fingerprint v ∉ c.seen := by rw [← ledger_of_client hg]; exact hm
      rw [ledger_processValue_new space dec w c v hg hm2]
      split
      · simp
      · omega

theorem values_card (space : String) (dec : Decryptor) (vs : List KeyValue) :
    ∀ w : World, w.ledger.card ≤ 10000 → (processValues space dec w vs).ledger.card ≤ 10000 := by
  induction vs with
  | nil => intro w h; exact h
  | cons v rest ih =>
    intro w h
    rw [processValues_cons]
    exact ih _ (step_card space dec w v h)

theorem cycles_card (space : String) (dec : Decryptor) (cycles : List CycleInput) :
    ∀ w : World, w.ledger.card ≤ 10000 → (runCycles space dec w cycles).ledger.card ≤ 10000 := by
  induction cycles with
  | nil => intro w h; exact h
  | cons c rest ih =>
    intro w h
    rw [runCycles_cons]
    apply ih
    rw [pollCycle_eq, syncStep_ledger]
    exact values_card space dec _ w h

/-- C8: whenever recording a new fingerprint makes the ledger hold more than 10,000 entries,
the same step leaves the ledger empty; and from a ledger of at most 10,000 entries, the ledger
holds at most 10,000 entries after every processed value and after every cycle. -/
theorem C8_ledger_bounded (space : String) (dec : Decryptor) (w : World)
    (h : w.ledger.card ≤ 10000) :
    (∀ (w0 : World) (v : KeyValue), fingerprint v ∉ w0.ledger →
        10000 < (insert (fingerprint v) w0.ledger).card →
        (processValue space dec w0 v).ledger = ∅)
      ∧ (∀ vs : List KeyValue, (processValues space dec w vs).ledger.card ≤ 10000)
      ∧ (∀ cycles : List CycleInput, (runCycles space dec w cycles).ledger.card ≤ 10000) := by
  refine ⟨?_, fun vs => values_card space dec vs w h, fun cycles => cycles_card space dec cycles w h⟩
  intro w0 v hm hlt
  cases hg : w0.gClient with
  | none =>
    simp [World.ledger, hg] at hlt
  | some c =>
    rw [ledger_of_client hg] at hm hlt
    rw [ledger_processValue_new space dec w0 c v hg hm, if_pos hlt]

/-- C8 from the empty ledger: after any processed values the ledger holds at most 10,000
entries. -/
theorem C8_ledger_bounded_witness :
    openWorld.ledger.card ≤ 10000
      ∧ ∀ vs : List KeyValue, (processValues "A" plainDec openWorld vs).ledger.card ≤ 10000 :=
  ⟨by decide, (C8_ledger_bounded "A" plainDec openWorld (by decide)).2.1⟩

/-! ## Redelivery after a reset -/

theorem count_cons_eq (a k : String) (l : List String) :
    (a :: l).count k = (if a = k then 1 else 0) + l.count k := by
  by_cases h : a = k
  · subst h; simp; omega
  · simp [List.count_cons, h]

theorem appendsAt_new {space : String} {dec : Decryptor} {w : World} {c : bridgeClient}
    {v : KeyValue} (hc : w.gClient = some c) (hnew : fingerprint v ∉ c.seen)
    (hdec : (dec v).isSome) : appendsAt space dec w v = true := by
  rw [appendsAt_iff, hc, ledger_of_client hc]
  exact ⟨rfl, hnew, hdec⟩

theorem resetsAt_new_false {w : World} {c : bridgeClient} {v : KeyValue}
    (hc : w.gClient = some c)
    (hle : ¬ 10000 < (insert (fingerprint v) c.seen).card) : resetsAt w v = false := by
  unfold resetsAt
  rw [ledger_of_client hc]
  exact decide_eq_false (fun h => hle h.2)

/-- A scan of values with pairwise different new fingerprints that all decrypt, where the last
value is the one that brings the ledger to 10,001 entries: every value is delivered, and the
scan ends with an empty ledger after one reset. -/
theorem sweep_reset (space : String) (dec : Decryptor) (k : String) (vs : List KeyValue) :
    ∀ (w : World) (c : bridgeClient), w.gClient = some c →
      (vs.map fingerprint).Nodup → (∀ v ∈ vs, fingerprint v ∉ c.seen) →
      c.seen.card + vs.length = 10001 → vs ≠ [] → (∀ v ∈ vs, (dec v).isSome) →
      (∃ c2, (processValues space dec w vs).gClient = some c2 ∧ c2.seen = ∅)
        ∧ appendsIn space dec k w vs = (vs.map fingerprint).count k
        ∧ resetsIn space dec w vs = 1 := by
  induction vs with
  | nil => intro w c _ _ _ _ hne; exact absurd rfl hne
  | cons v rest ih =>
    intro w c hc hnd hnew hcard _ hdec
    have hv : fingerprint v ∉ c.seen := hnew v (List.mem_cons_self _ _)
    have hstep := processValue_new space dec w c v hc hv
    have hins : (insert (fingerprint v) c.seen).card = c.seen.card + 1 :=
      Finset.card_insert_of_not_mem hv
    have happ : appendsAt space dec w v = true :=
      appendsAt_new hc hv (hdec v (List.mem_cons_self _ _))
    simp only [List.map_cons, List.nodup_cons] at hnd
    simp only [List.length_cons] at hcard
    rw [processValues_cons]
    simp only [appendsIn, resetsIn, List.map_cons, happ, and_true]
    cases rest with
    | nil =>
      have hlt : 10000 < (insert (fingerprint v) c.seen).card := by
        simp only [List.length_nil] at hcard
        omega
      have hr : resetsAt w v = true := resetsAt_of_card hc hv hlt
      refine ⟨⟨_, by rw [processValues_nil]; exact hstep.1, by simp [hlt]⟩, ?_, ?_⟩
      · rw [count_cons_eq]
        simp [appendsIn]
      · simp [resetsIn, hr]
    | cons v2 rest2 =>
      have hle : ¬ 10000 < (insert (fingerprint v) c.seen).card := by
        simp only [List.length_cons] at hcard
        omega
      have hr : resetsAt w v = false := resetsAt_new_false hc hle
      have hc1 := hstep.1
      rw [if_neg hle] at hc1
      have hnew1 : ∀ x ∈ v2 :: rest2,
          fingerprint x ∉ ({ c with seen := insert (fingerprint v) c.seen } : bridgeClient).seen := by
        intro x hx hmem
        simp only [Finset.mem_insert] at hmem
        rcases hmem with h | h
        · exact hnd.1 (h ▸ List.mem_map_of_mem fingerprint hx)
        · exact hnew x (List.mem_cons_of_mem _ hx) h
      have hcard1 : ({ c with seen := insert (fingerprint v) c.seen } : bridgeClient).seen.card
          + (v2 :: rest2).length = 10001 := by
        simp only [hins]
        simp only [List.length_cons] at hcard ⊢
        omega
      obtain ⟨h1, h2, h3⟩ := ih (processValue space dec w v) _ hc1 hnd.2 hnew1 hcard1
        (List.cons_ne_nil _ _) (fun x hx => hdec x (List.mem_cons_of_mem _ hx))
      refine ⟨h1, ?_, ?_⟩
      · rw [h2, count_cons_eq]
      · rw [h3, hr]
        simp

theorem syncStep_client_seen (w : World) (inp : CycleInput) (c : bridgeClient)
    (hc : w.gClient = some c) :
    ∃ c2, (syncStep w inp).gClient = some c2 ∧ c2.seen = c.seen := by
  refine ⟨opportunisticSync c inp, ?_, opportunisticSync_seen c inp⟩
  unfold syncStep
  rw [hc]

theorem fingerprint_manyPeers_injective :
    Function.Injective (fun i : Nat =>
      fingerprint { KeyPeerId := String.mk (List.replicate (i + 1) 'a'), TimestampMilli := 0,
                    Value := "op" }) := by
  intro i j h
  have hl := congrArg String.length h
  simp only [fingerprint, String.length_append, String.length_mk, List.length_replicate] at hl
  omega

theorem manyPeers_nodup (n : Nat) : ((manyPeers n).map fingerprint).Nodup := by
  unfold manyPeers
  rw [List.map_map]
  exact (List.nodup_range n).map fingerprint_manyPeers_injective

theorem manyPeers_length (n : Nat) : (manyPeers n).length = n := by
  simp [manyPeers]

theorem manyPeers_count : ((manyPeers 10001).map fingerprint).count "a:0" = 1 := by
  apply List.count_eq_one_of_mem (manyPeers_nodup 10001)
  unfold manyPeers
  rw [List.map_map, List.mem_map]
  exact ⟨0, by simp, by decide⟩

/-- From an empty ledger, a cycle over `fullCycle` delivers the value of peer `a` once, resets
the ledger once, and ends with an empty ledger again. -/
theorem fullCycle_step (space : String) (w : World) (c : bridgeClient)
    (hc : w.gClient = some c) (hs : c.seen = ∅) :
    (∃ c2, (pollCycle space plainDec w fullCycle).gClient = some c2 ∧ c2.seen = ∅)
      ∧ appendsIn space plainDec "a:0" w (movesValues fullCycle.entries) = 1
      ∧ resetsIn space plainDec w (movesValues fullCycle.entries) = 1 := by
  have hmv : movesValues fullCycle.entries = manyPeers 10001 := by
    simp [fullCycle, movesValues]
  rw [hmv, pollCycle_eq, hmv]
  have hne : manyPeers 10001 ≠ [] := by
    intro h
    have := manyPeers_length 10001
    rw [h] at this
    simp at this
  obtain ⟨⟨c2, h1, h1s⟩, h2, h3⟩ := sweep_reset space plainDec "a:0" (manyPeers 10001) w c hc
    (manyPeers_nodup 10001) (by intro v _; rw [hs]; exact Finset.not_mem_empty _)
    (by rw [hs, manyPeers_length]; rfl) hne (by intro v _; rfl)
  obtain ⟨c3, h4, h4s⟩ := syncStep_client_seen _ fullCycle c2 h1
  exact ⟨⟨c3, h4, h4s.trans h1s⟩, h2.trans manyPeers_count, h3⟩

theorem appendsOver_cons (space : String) (dec : Decryptor) (k : String) (w : World)
    (c : CycleInput) (rest : List CycleInput) :
    appendsOver space dec k w (c :: rest)
      = appendsIn space dec k w (movesValues c.entries)
          + appendsOver space dec k (pollCycle space dec w c) rest := rfl

theorem resetsOver_cons (space : String) (dec : Decryptor) (w : World)
    (c : CycleInput) (rest : List CycleInput) :
    resetsOver space dec w (c :: rest)
      = resetsIn space dec w (movesValues c.entries)
          + resetsOver space dec (pollCycle space dec w c) rest := rfl

theorem appendsOver_nil (space : String) (dec : Decryptor) (k : String) (w : World) :
    appendsOver space dec k w [] = 0 := rfl

theorem resetsOver_nil (space : String) (dec : Decryptor) (w : World) :
    resetsOver space dec w [] = 0 := rfl

/-- C9 refuted: with 10,001 values from 10,001 peers under "moves", the first cycle delivers
the value with fingerprint "a:0" and resets the ledger; each of the next two cycles delivers
it again, so it is redelivered twice after that reset (and once more for every further cycle). -/
theorem C9_redelivery_unbounded :
    appendsOver "A" plainDec "a:0" openWorld [fullCycle] = 1
      ∧ resetsOver "A" plainDec openWorld [fullCycle] = 1
      ∧ appendsOver "A" plainDec "a:0" (pollCycle "A" plainDec openWorld fullCycle)
          [fullCycle, fullCycle] = 2 := by
  obtain ⟨⟨c1, hc1, hs1⟩, a1, r1⟩ := fullCycle_step "A" openWorld openClient rfl rfl
  obtain ⟨⟨c2, hc2, hs2⟩, a2, _⟩ :=
    fullCycle_step "A" (pollCycle "A" plainDec openWorld fullCycle) c1 hc1 hs1
  obtain ⟨_, a3, _⟩ := fullCycle_step "A"
    (pollCycle "A" plainDec (pollCycle "A" plainDec openWorld fullCycle) fullCycle) c2 hc2 hs2
  refine ⟨?_, ?_, ?_⟩
  · rw [appendsOver_cons, appendsOver_nil, a1]
  · rw [resetsOver_cons, resetsOver_nil, r1]
  · rw [appendsOver_cons, appendsOver_cons, appendsOver_nil, a2, a3]

/-- Every cycle over `fullCycle`, started with an empty ledger, delivers the value of peer
`a` and resets the ledger: `n` cycles give `n` deliveries and `n` resets. -/
theorem fullCycle_repeat (space : String) (n : Nat) :
    ∀ (w : World) (c : bridgeClient), w.gClient = some c → c.seen = ∅ →
      appendsOver space plainDec "a:0" w (List.replicate n fullCycle) = n
        ∧ resetsOver space plainDec w (List.replicate n fullCycle) = n := by
  induction n with
  | zero => intro w c _ _; exact ⟨rfl, rfl⟩
  | succ n ih =>
    intro w c hc hs
    obtain ⟨⟨c2, hc2, hs2⟩, a1, r1⟩ := fullCycle_step space w c hc hs
    obtain ⟨a2, r2⟩ := ih (pollCycle space plainDec w fullCycle) c2 hc2 hs2
    rw [List.replicate_succ, appendsOver_cons, resetsOver_cons, a1, r1, a2, r2]
    exact ⟨by omega, by omega⟩

/-- C9 as amended: over every sequence of cycles, from every state, the number of appends
that one fingerprint causes is at most the number of ledger resets in that sequence plus one;
and that number is not bounded independently of the number of cycles: over the store with
10,001 values from 10,001 peers under "moves", `n` cycles reset the ledger `n` times and
deliver the fingerprint "a:0" `n` times, for every `n`. -/
theorem C9_redelivery_per_reset (space : String) (dec : Decryptor) (w : World)
    (cycles : List CycleInput) (k : String) :
    appendsOver space dec k w cycles ≤ resetsOver space dec w cycles + 1
      ∧ (∀ n : Nat,
          appendsOver "A" plainDec "a:0" openWorld (List.replicate n fullCycle) = n
            ∧ resetsOver "A" plainDec openWorld (List.replicate n fullCycle) = n) := by
  have h := cycles_pending space dec k cycles w
  have h1 := pending_le_one k w
  exact ⟨by omega, fun n => fullCycle_repeat "A" n openWorld openClient rfl rfl⟩

/-! ## One ledger for all spaces -/

/-- C10 as amended: the ledger belongs to the client and is shared by the pollers of all
spaces.  When the poller of `A` has processed a value without a ledger reset, the fingerprint
is in the ledger, the poller of any space `B` skips the same value, and no cycle of the poller
of `B` delivers that fingerprint until the ledger is reset. -/
theorem C10_ledger_shared (A B : String) (dec : Decryptor) (w : World) (v : KeyValue)
    (hc : w.gClient.isSome = true) (hr : resetsAt w v = false) :
    fingerprint v ∈ (processValue A dec w v).ledger
      ∧ processValue B dec (processValue A dec w v) v = processValue A dec w v
      ∧ (∀ cycles : List CycleInput,
          resetsOver B dec (processValue A dec w v) cycles = 0 →
          appendsOver B dec (fingerprint v) (processValue A dec w v) cycles = 0) := by
  have hk : fingerprint v ∈ (processValue A dec w v).ledger := by
    by_cases hm : fingerprint v ∈ w.ledger
    · rw [processValue_of_mem A dec w v hm]; exact hm
    · cases hg : w.gClient with
      | none => rw [hg] at hc; exact absurd hc (by simp)
      | some c =>
        have hm2 : fingerprint v ∉ c.seen := by rw [← ledger_of_client hg]; exact hm
        have hle : ¬ 10000 < (insert (fingerprint v) c.seen).card := by
          intro hlt
          have := resetsAt_of_card hg hm2 hlt
          rw [hr] at this
          exact Bool.false_ne_true this
        rw [ledger_processValue_new A dec w c v hg hm2, if_neg hle]
        exact Finset.mem_insert_self _ _
  refine ⟨hk, processValue_of_mem B dec _ v hk, ?_⟩
  intro cycles hz
  have h := cycles_pending B dec (fingerprint v) cycles (processValue A dec w v)
  have h2 : pending (fingerprint v) (processValue A dec w v) = 0 := by simp [pending, hk]
  omega

/-- C10 refuted: after the poller of "A" has scanned a store holding `move1`, the poller of
"B" scanning the same store delivers nothing to the queue of "B". -/
theorem C10_ledger_not_per_space :
    (pollCycle "A" plainDec openWorld smallCycle).eventQueues.index "A" = ["move-1"]
      ∧ fingerprint move1 ∈ (pollCycle "A" plainDec openWorld smallCycle).ledger
      ∧ (pollCycle "B" plainDec (pollCycle "A" plainDec openWorld smallCycle)
            smallCycle).eventQueues.index "B" = []
      ∧ (pollCycle "B" plainDec openWorld smallCycle).eventQueues.index "B" = ["move-1"] := by
  decide

/-- C10 as amended, at `move1` and the spaces "A" and "B". -/
theorem C10_ledger_shared_witness :
    openWorld.gClient.isSome = true
      ∧ resetsAt openWorld move1 = false
      ∧ fingerprint move1 ∈ (processValue "A" plainDec openWorld move1).ledger
      ∧ processValue "B" plainDec (processValue "A" plainDec openWorld move1) move1
          = processValue "A" plainDec openWorld move1 :=
  ⟨rfl, by decide,
    (C10_ledger_shared "A" "B" plainDec openWorld move1 rfl (by decide)).1,
    (C10_ledger_shared "A" "B" plainDec openWorld move1 rfl (by decide)).2.1⟩

/-! ## Demo mode: loopback echo -/

/-- C14: in demo mode, for a space id whose queue is empty and any payload,
`BridgeSendOperation` returns 1, the next `BridgePollOperation` for the id returns the payload
as a C string, which is the payload unchanged since a payload received through `C.GoString`
holds no NUL byte, and the poll after that returns the absent result. -/
theorem C14_demo_echo_once (unmarshalOk : String → Bool) (setOk : String → String → Bool)
    (w : World) (c : bridgeClient) (id m : String)
    (hc : w.gClient = some c) (hdemo : c.demoMode = true)
    (hq : w.eventQueues.index id = []) :
    (BridgeSendOperation unmarshalOk setOk w id m).1 = 1
      ∧ (BridgePollOperation (BridgeSendOperation unmarshalOk setOk w id m).2 id).1
          = some (CString m)
      ∧ (nulFree m = true →
          (BridgePollOperation (BridgeSendOperation unmarshalOk setOk w id m).2 id).1 = some m)
      ∧ (BridgePollOperation
          (BridgePollOperation (BridgeSendOperation unmarshalOk setOk w id m).2 id).2 id).1
          = none := by
  have hs : BridgeSendOperation unmarshalOk setOk w id m
      = (1, { w with eventQueues := w.eventQueues.assign id (w.eventQueues.index id ++ [m]) }) := by
    unfold BridgeSendOperation
    rw [hc]
    simp [hdemo]
  have hi : (BridgeSendOperation unmarshalOk setOk w id m).2.eventQueues.index id = m :: [] := by
    rw [hs]
    simp [index_assign_self, hq]
  refine ⟨by rw [hs], poll_cons_fst _ id m [] hi, ?_, ?_⟩
  · intro hn
    rw [poll_cons_fst _ id m [] hi, CString_of_nulFree m hn]
  · rw [poll_nil _ id (poll_cons_index _ id m [] hi)]

/-- C14 at the payload of the end-to-end scenario, in the demo-mode start state. -/
theorem C14_demo_echo_once_witness :
    demoWorld.gClient = some demoClient
      ∧ demoClient.demoMode = true
      ∧ demoWorld.eventQueues.index "A" = []
      ∧ nulFree moveXPayload = true
      ∧ (BridgeSendOperation rejectsEmpty setAlwaysOk demoWorld "A" moveXPayload).1 = 1
      ∧ (BridgePollOperation
          (BridgeSendOperation rejectsEmpty setAlwaysOk demoWorld "A" moveXPayload).2 "A").1
          = some moveXPayload
      ∧ (BridgePollOperation
          (BridgePollOperation
            (BridgeSendOperation rejectsEmpty setAlwaysOk demoWorld "A" moveXPayload).2 "A").2
          "A").1 = none :=
  ⟨rfl, rfl, rfl, by decide,
    (C14_demo_echo_once rejectsEmpty setAlwaysOk demoWorld demoClient "A" moveXPayload
      rfl rfl rfl).1,
    (C14_demo_echo_once rejectsEmpty setAlwaysOk demoWorld demoClient "A" moveXPayload
      rfl rfl rfl).2.2.1 (by decide),
    (C14_demo_echo_once rejectsEmpty setAlwaysOk demoWorld demoClient "A" moveXPayload
      rfl rfl rfl).2.2.2⟩

/-! ## Storing an operation -/

/-- C16: for a client outside demo mode with an open store and a payload that decodes,
`BridgeSendOperation` calls `store.Set` exactly once, with the key "moves" and the payload
unchanged, returns 1 exactly when that call succeeds (and 0 otherwise), changes nothing else
in the state, queues included, and does the same for every space id. -/
theorem C16_send_stores_under_moves (unmarshalOk : String → Bool)
    (setOk : String → String → Bool) (w : World) (c : bridgeClient) (spaceId m : String)
    (hc : w.gClient = some c) (hdemo : c.demoMode = false) (hstore : c.store.isSome = true)
    (hok : unmarshalOk m = true) :
    (BridgeSendOperation unmarshalOk setOk w spaceId m).2
        = { w with setCalls := w.setCalls ++ [("moves", m)] }
      ∧ ((BridgeSendOperation unmarshalOk setOk w spaceId m).1 = 1 ↔ setOk "moves" m = true)
      ∧ ((BridgeSendOperation unmarshalOk setOk w spaceId m).1 = 0 ↔ setOk "moves" m = false)
      ∧ (BridgeSendOperation unmarshalOk setOk w spaceId m).2.eventQueues = w.eventQueues
      ∧ (∀ other : String,
          BridgeSendOperation unmarshalOk setOk w other m
            = BridgeSendOperation unmarshalOk setOk w spaceId m) := by
  have hn : c.store.isNone = false := by
    cases hs : c.store with
    | none => rw [hs] at hstore; exact absurd hstore (by simp)
    | some x => rfl
  have hs : ∀ id : String, BridgeSendOperation unmarshalOk setOk w id m
      = (if setOk "moves" m = true then 1 else 0,
          { w with setCalls := w.setCalls ++ [("moves", m)] }) := by
    intro id
    unfold BridgeSendOperation
    rw [hc]
    simp only [hdemo, hn, hok]
    by_cases h : setOk "moves" m = true <;> simp [h]
  refine ⟨by rw [hs], ?_, ?_, by rw [hs], fun other => by rw [hs, hs]⟩
  · rw [hs]
    by_cases h : setOk "moves" m = true <;> simp [h]
  · rw [hs]
    by_cases h : setOk "moves" m = true <;> simp [h]

/-- C16 at the payload of the end-to-end scenario and a store whose `Set` succeeds. -/
theorem C16_send_stores_under_moves_witness :
    openWorld.gClient = some openClient
      ∧ openClient.demoMode = false
      ∧ openClient.store.isSome = true
      ∧ rejectsEmpty moveXPayload = true
      ∧ (BridgeSendOperation rejectsEmpty setAlwaysOk openWorld "A" moveXPayload).2.setCalls
          = [("moves", moveXPayload)]
      ∧ (BridgeSendOperation rejectsEmpty setAlwaysOk openWorld "A" moveXPayload).1 = 1 :=
  ⟨rfl, rfl, rfl, by decide,
    by rw [(C16_send_stores_under_moves rejectsEmpty setAlwaysOk openWorld openClient "A"
          moveXPayload rfl rfl rfl (by decide)).1]; rfl,
    (C16_send_stores_under_moves rejectsEmpty setAlwaysOk openWorld openClient "A"
      moveXPayload rfl rfl rfl (by decide)).2.1.mpr rfl⟩

/-! ## The effect of one scan -/

theorem resetsAt_false_card {w : World} {c : bridgeClient} {v : KeyValue}
    (hc : w.gClient = some c) (hnew : fingerprint v ∉ c.seen) (hr : resetsAt w v = false) :
    ¬ 10000 < (insert (fingerprint v) c.seen).card := by
  intro hlt
  have := resetsAt_of_card hc hnew hlt
  rw [hr] at this
  exact Bool.false_ne_true this

/-- A scan without reset, value by value: the queue of the space gets the payloads of the new
values, the ledger gets all fingerprints met, the other queues stay. -/
theorem values_scan (space : String) (dec : Decryptor) (L : Finset String)
    (vs : List KeyValue) :
    ∀ (w : World) (c : bridgeClient) (earlier : List KeyValue), w.gClient = some c →
      c.seen = L ∪ (earlier.map fingerprint).toFinset →
      resetsIn space dec w vs = 0 →
      (processValues space dec w vs).eventQueues.index space
          = w.eventQueues.index space ++ (newInScan L earlier vs).filterMap dec
        ∧ (processValues space dec w vs).ledger = c.seen ∪ (vs.map fingerprint).toFinset
        ∧ (∀ j, j ≠ space → (processValues space dec w vs).eventQueues j = w.eventQueues j) := by
  induction vs with
  | nil =>
    intro w c earlier hc _ _
    simp [processValues, newInScan, ledger_of_client hc]
  | cons v rest ih =>
    intro w c earlier hc hL hr
    obtain ⟨hr1, hr2⟩ := resetsIn_cons_zero hr
    rw [processValues_cons]
    by_cases hm : fingerprint v ∈ c.seen
    · have hm2 : fingerprint v ∈ w.ledger := by rw [ledger_of_client hc]; exact hm
      have hw := processValue_of_mem space dec w v hm2
      rw [hw] at hr2 ⊢
      have hL2 : c.seen = L ∪ ((earlier ++ [v]).map fingerprint).toFinset := by
        rw [hL] at hm ⊢
        ext x
        simp only [Finset.mem_union, List.mem_toFinset, List.map_append, List.map_cons,
          List.map_nil, List.mem_append, List.mem_singleton] at hm ⊢
        constructor
        · rintro (h | h)
          · exact Or.inl h
          · exact Or.inr (Or.inl h)
        · rintro (h | h | h)
          · exact Or.inl h
          · exact Or.inr h
          · subst h; exact hm
      obtain ⟨h1, h2, h3⟩ := ih w c (earlier ++ [v]) hc hL2 hr2
      have hcond : ¬ (fingerprint v ∉ L ∧ fingerprint v ∉ earlier.map fingerprint) := by
        rw [hL] at hm
        simp only [Finset.mem_union, List.mem_toFinset] at hm
        tauto
      refine ⟨?_, ?_, h3⟩
      · rw [h1]
        simp only [newInScan, hcond, if_false]
      · rw [h2]
        ext x
        simp only [Finset.mem_union, List.mem_toFinset, List.map_cons, List.mem_cons]
        constructor
        · rintro (h | h)
          · exact Or.inl h
          · exact Or.inr (Or.inr h)
        · rintro (h | h | h)
          · exact Or.inl h
          · subst h; exact Or.inl hm
          · exact Or.inr h
    · have hle := resetsAt_false_card hc hm hr1
      have hstep := processValue_new space dec w c v hc hm
      have hc1 := hstep.1
      rw [if_neg hle] at hc1
      have hL2 : ({ c with seen := insert (fingerprint v) c.seen } : bridgeClient).seen
          = L ∪ ((earlier ++ [v]).map fingerprint).toFinset := by
        show insert (fingerprint v) c.seen = _
        rw [hL]
        ext x
        simp only [Finset.mem_insert, Finset.mem_union, List.mem_toFinset, List.map_append,
          List.map_cons, List.map_nil, List.mem_append, List.mem_singleton]
        tauto
      obtain ⟨h1, h2, h3⟩ := ih (processValue space dec w v) _ (earlier ++ [v]) hc1 hL2 hr2
      have hcond : fingerprint v ∉ L ∧ fingerprint v ∉ earlier.map fingerprint := by
        rw [hL] at hm
        simp only [Finset.mem_union, List.mem_toFinset] at hm
        tauto
      have hq := hstep.2.2.2.2.2
      refine ⟨?_, ?_, ?_⟩
      · rw [h1, hq]
        simp only [newInScan, hcond, and_self, if_true]
        cases hd : dec v with
        | none => simp [List.filterMap_cons, hd]
        | some data => simp [List.filterMap_cons, hd, index_assign_self]
      · rw [h2]
        show insert (fingerprint v) c.seen ∪ _ = _
        ext x
        simp only [Finset.mem_insert, Finset.mem_union, List.mem_toFinset, List.map_cons,
          List.mem_cons]
        tauto
      · intro j hj
        rw [h3 j hj, hq]
        cases hd : dec v with
        | none => rfl
        | some data => simp [GoMap.assign, hj]

theorem movesValues_filter (entries : List (String × List KeyValue)) :
    movesValues (entries.filter (fun e => decide (e.1 = "moves"))) = movesValues entries := by
  induction entries with
  | nil => rfl
  | cons e rest ih =>
    obtain ⟨key, values⟩ := e
    by_cases hk : key = "moves"
    · simp [List.filter_cons, movesValues, hk, ih]
    · simp [List.filter_cons, movesValues, hk, ih]

/-- C15: a cycle of the poller of `space` that starts with ledger `c.seen` and meets no ledger
reset leaves the queue of `space` equal to the old queue followed by the decrypted payloads of
exactly the values stored under "moves" whose fingerprint is not in the ledger, has not
occurred earlier in the scan and whose decrypt succeeds, in iteration order; the ledger gets
the fingerprints of the values under "moves" and no others, entries under other keys have no
effect at all, and the queue of every other space is unchanged. -/
theorem C15_scan_effect (space : String) (dec : Decryptor) (w : World) (c : bridgeClient)
    (inp : CycleInput) (hc : w.gClient = some c)
    (hr : resetsIn space dec w (movesValues inp.entries) = 0) :
    (pollCycle space dec w inp).eventQueues.index space
        = w.eventQueues.index space ++ scanPayloads dec c.seen inp.entries
      ∧ (pollCycle space dec w inp).ledger
        = c.seen ∪ ((movesValues inp.entries).map fingerprint).toFinset
      ∧ scanStore space dec w inp.entries
        = scanStore space dec w (inp.entries.filter (fun e => decide (e.1 = "moves")))
      ∧ (∀ j, j ≠ space → (pollCycle space dec w inp).eventQueues j = w.eventQueues j) := by
  obtain ⟨h1, h2, h3⟩ := values_scan space dec c.seen (movesValues inp.entries) w c [] hc
    (by simp) hr
  have hf := syncStep_frame (processValues space dec w (movesValues inp.entries)) inp
  refine ⟨?_, ?_, ?_, ?_⟩
  · rw [pollCycle_eq, hf.1, h1]
    rfl
  · rw [pollCycle_eq, syncStep_ledger, h2]
  · rw [scanStore_eq, scanStore_eq, movesValues_filter]
  · intro j hj
    rw [pollCycle_eq, hf.1, h3 j hj]

/-- C15 at a cycle that meets `move1` twice under "moves" and once under another key: the
payload is appended once. -/
theorem C15_scan_effect_witness :
    openWorld.gClient = some openClient
      ∧ resetsIn "A" plainDec openWorld (movesValues smallCycle.entries) = 0
      ∧ scanPayloads plainDec openClient.seen smallCycle.entries = ["move-1"]
      ∧ (pollCycle "A" plainDec openWorld smallCycle).eventQueues.index "A"
          = openWorld.eventQueues.index "A" ++ scanPayloads plainDec openClient.seen
              smallCycle.entries :=
  ⟨rfl, by decide, by decide,
    (C15_scan_effect "A" plainDec openWorld openClient smallCycle rfl (by decide)).1⟩

/-! ## The ledger key determines the fingerprint -/

theorem digitChar_value (d : Nat) (h : d < 10) : digitValue (Nat.digitChar d) = d := by
  interval_cases d <;> rfl

theorem digitChar_plain (d : Nat) (h : d < 10) :
    Nat.digitChar d ≠ ':' ∧ Nat.digitChar d ≠ '-' := by
  interval_cases d <;> exact ⟨by decide, by decide⟩

theorem readDecimal_cons (acc : Nat) (c : Char) (cs : List Char) :
    readDecimal acc (c :: cs) = readDecimal (acc * 10 + digitValue c) cs := rfl

/-- Reading back what `Nat.toDigitsCore` wrote in front of `ds` gives the number written. -/
theorem readDecimal_toDigitsCore (fuel : Nat) :
    ∀ (n : Nat) (ds : List Char), n < fuel →
      readDecimal 0 (Nat.toDigitsCore 10 fuel n ds) = readDecimal n ds := by
  induction fuel with
  | zero => intro n ds h; omega
  | succ fuel ih =>
    intro n ds h
    unfold Nat.toDigitsCore
    simp only
    have hd := digitChar_value (n % 10) (Nat.mod_lt n (by decide))
    by_cases h0 : n / 10 = 0
    · rw [if_pos h0, readDecimal_cons, hd]
      have : n % 10 = n := by omega
      rw [this]
      simp
    · rw [if_neg h0, ih (n / 10) _ (by omega), readDecimal_cons, hd]
      have : n / 10 * 10 + n % 10 = n := by omega
      rw [this]

theorem toDigitsCore_chars (fuel : Nat) :
    ∀ (n : Nat) (ds : List Char) (c : Char), c ∈ Nat.toDigitsCore 10 fuel n ds →
      c ∈ ds ∨ (c ≠ ':' ∧ c ≠ '-') := by
  induction fuel with
  | zero => intro n ds c h; exact Or.inl (by simpa [Nat.toDigitsCore] using h)
  | succ fuel ih =>
    intro n ds c h
    unfold Nat.toDigitsCore at h
    simp only at h
    have hp := digitChar_plain (n % 10) (Nat.mod_lt n (by decide))
    by_cases h0 : n / 10 = 0
    · rw [if_pos h0] at h
      rcases List.mem_cons.mp h with h1 | h1
      · exact Or.inr (h1 ▸ hp)
      · exact Or.inl h1
    · rw [if_neg h0] at h
      rcases ih _ _ c h with h1 | h1
      · rcases List.mem_cons.mp h1 with h2 | h2
        · exact Or.inr (h2 ▸ hp)
        · exact Or.inl h2
      · exact Or.inr h1

theorem repr_data (n : Nat) : (Nat.repr n).data = Nat.toDigits 10 n := rfl

theorem repr_chars (n : Nat) (c : Char) (h : c ∈ (Nat.repr n).data) : c ≠ ':' ∧ c ≠ '-' := by
  rw [repr_data] at h
  rcases toDigitsCore_chars _ _ _ c h with h1 | h1
  · simp at h1
  · exact h1

theorem repr_data_injective (a b : Nat) (h : (Nat.repr a).data = (Nat.repr b).data) : a = b := by
  rw [repr_data, repr_data] at h
  have ha := readDecimal_toDigitsCore (a + 1) a [] (by omega)
  have hb := readDecimal_toDigitsCore (b + 1) b [] (by omega)
  unfold Nat.toDigits at h
  rw [h, hb] at ha
  simpa [readDecimal] using ha.symm

theorem toString_ofNat_data (m : Nat) :
    (toString (Int.ofNat m)).data = (Nat.repr m).data := rfl

theorem toString_negSucc_data (m : Nat) :
    (toString (Int.negSucc m)).data = '-' :: (Nat.repr (m + 1)).data := rfl

theorem toString_int_no_colon (t : Int) : ':' ∉ (toString t).data := by
  intro h
  cases t with
  | ofNat m =>
    rw [toString_ofNat_data] at h
    exact (repr_chars m ':' h).1 rfl
  | negSucc m =>
    rw [toString_negSucc_data] at h
    rcases List.mem_cons.mp h with h1 | h1
    · exact absurd h1 (by decide)
    · exact (repr_chars (m + 1) ':' h1).1 rfl

theorem toString_int_data_injective (t1 t2 : Int)
    (h : (toString t1).data = (toString t2).data) : t1 = t2 := by
  cases t1 with
  | ofNat a =>
    cases t2 with
    | ofNat b =>
      rw [toString_ofNat_data, toString_ofNat_data] at h
      rw [repr_data_injective a b h]
    | negSucc b =>
      rw [toString_ofNat_data, toString_negSucc_data] at h
      have hm : '-' ∈ (Nat.repr a).data := by rw [h]; exact List.mem_cons_self _ _
      exact absurd rfl (repr_chars a '-' hm).2
  | negSucc a =>
    cases t2 with
    | ofNat b =>
      rw [toString_ofNat_data, toString_negSucc_data] at h
      have hm : '-' ∈ (Nat.repr b).data := by rw [← h]; exact List.mem_cons_self _ _
      exact absurd rfl (repr_chars b '-' hm).2
    | negSucc b =>
      rw [toString_negSucc_data, toString_negSucc_data] at h
      have h2 := repr_data_injective (a + 1) (b + 1) (List.cons.inj h).2
      have : a = b := by omega
      rw [this]

/-- Two lists split at a separator that does not occur after it are split the same way. -/
theorem split_at_last (sep : Char) :
    ∀ (p1 p2 r1 r2 : List Char), sep ∉ r1 → sep ∉ r2 →
      p1 ++ sep :: r1 = p2 ++ sep :: r2 → p1 = p2 ∧ r1 = r2 := by
  intro p1
  induction p1 with
  | nil =>
    intro p2 r1 r2 h1 _ h
    cases p2 with
    | nil => exact ⟨rfl, (List.cons.inj h).2⟩
    | cons c p2 =>
      have h3 := (List.cons.inj h).2
      exact absurd (by rw [h3]; simp) h1
  | cons c p1 ih =>
    intro p2 r1 r2 h1 h2 h
    cases p2 with
    | nil =>
      have h3 := (List.cons.inj h).2
      exact absurd (by rw [← h3]; simp) h2
    | cons c2 p2 =>
      obtain ⟨hc, ht⟩ := List.cons.inj h
      obtain ⟨hp, hr⟩ := ih p2 r1 r2 h1 h2 ht
      exact ⟨by rw [hc, hp], hr⟩

theorem fingerprint_data (v : KeyValue) :
    (fingerprint v).data = v.KeyPeerId.data ++ ':' :: (toString v.TimestampMilli).data := by
  simp [fingerprint, String.data_append]

/-- C17: the ledger key, the peer id followed by a colon and the decimal timestamp, determines
the fingerprint: two values have the same key exactly when they have the same peer id and the
same timestamp, whatever characters the peer ids contain. -/
theorem C17_fingerprint_injective (v1 v2 : KeyValue) :
    fingerprint v1 = fingerprint v2
      ↔ (v1.KeyPeerId = v2.KeyPeerId ∧ v1.TimestampMilli = v2.TimestampMilli) := by
  constructor
  · intro h
    have hd := congrArg String.data h
    rw [fingerprint_data, fingerprint_data] at hd
    obtain ⟨hp, ht⟩ := split_at_last ':' _ _ _ _ (toString_int_no_colon _)
      (toString_int_no_colon _) hd
    exact ⟨String.ext hp, toString_int_data_injective _ _ ht⟩
  · rintro ⟨hp, ht⟩
    unfold fingerprint
    rw [hp, ht]

/-! ## Pushing a new space to the node peers -/

theorem pushLoop_prefix (peers : List NodePeer) : (pushLoop peers).2 <+: peers := by
  induction peers with
  | nil => exact List.prefix_refl _
  | cons p rest ih =>
    unfold pushLoop
    split
    · exact (List.prefix_cons_inj p).mpr ih
    · split
      · exact (List.prefix_cons_inj p).mpr ih
      · exact ⟨rest, rfl⟩

theorem pushLoop_first (pre : List NodePeer) (p : NodePeer) (post : List NodePeer)
    (hpre : ∀ q ∈ pre, q.accepts = false) (hp : p.accepts = true) :
    pushLoop (pre ++ p :: post) = (true, pre ++ [p]) := by
  induction pre with
  | nil =>
    simp only [NodePeer.accepts, Bool.and_eq_true, Bool.not_eq_true'] at hp
    simp [pushLoop, hp.1, hp.2]
  | cons q pre ih =>
    have hq := hpre q (List.mem_cons_self _ _)
    have ih2 := ih (fun x hx => hpre x (List.mem_cons_of_mem _ hx))
    simp only [NodePeer.accepts] at hq
    simp only [List.cons_append, pushLoop]
    cases h1 : q.acquireFails
    · cases h2 : q.pushFails
      · rw [h1, h2] at hq; exact absurd hq (by decide)
      · simp [ih2]
    · simp [ih2]

theorem pushLoop_none (peers : List NodePeer) :
    (pushLoop peers).1 = false ↔ ∀ q ∈ peers, q.accepts = false := by
  induction peers with
  | nil => simp [pushLoop]
  | cons p rest ih =>
    unfold pushLoop
    cases h1 : p.acquireFails
    · cases h2 : p.pushFails
      · simp [NodePeer.accepts, h1, h2]
      · simp [NodePeer.accepts, h1, h2, ih]
    · simp [NodePeer.accepts, h1, ih]

theorem pushLoop_all (peers : List NodePeer) (h : ∀ q ∈ peers, q.accepts = false) :
    (pushLoop peers).2 = peers := by
  induction peers with
  | nil => rfl
  | cons p rest ih =>
    have hp := h p (List.mem_cons_self _ _)
    have ih2 := ih (fun x hx => h x (List.mem_cons_of_mem _ hx))
    unfold pushLoop
    cases h1 : p.acquireFails
    · cases h2 : p.pushFails
      · simp [NodePeer.accepts, h1, h2] at hp
      · simp [ih2]
    · simp [ih2]

theorem pushSpaceToNode_ok (peers : List NodePeer) (hne : peers ≠ []) :
    pushSpaceToNode (.ok peers) none
      = (if (pushLoop peers).1 then none else some "space push failed: no peer accepted",
          (pushLoop peers).2) := by
  have hl : ¬ peers.length = 0 := by
    intro h
    exact hne (List.length_eq_zero.mp h)
  unfold pushSpaceToNode
  simp only [hl, if_false]
  split <;> rfl

/-- C11 refuted: with one known peer that would accept the push and a failing
`sp.Description`, `pushSpaceToNode` returns a failure without contacting the peer. -/
theorem C11_failure_without_contact :
    goodPeer.accepts = true
      ∧ pushSpaceToNode (.ok [goodPeer]) (some "no description")
          = (some "no description", []) := by
  decide

/-- C11 as amended: when `GetNodePeers` and `Description` succeed and peers are known, the
peers are contacted in list order, nobody is contacted after the first peer that accepts and
the result is then success, and a failure is returned only if every known peer was unreachable
or rejected the push (all of them were then contacted).  When `GetNodePeers` or `Description`
fails, that error is returned and nobody is contacted; when no peer is known the result is
success and nobody is contacted. -/
theorem C11_push_first_acceptance (peers : List NodePeer) (hne : peers ≠ []) :
    (pushSpaceToNode (.ok peers) none).2 <+: peers
      ∧ (∀ (pre : List NodePeer) (p : NodePeer) (post : List NodePeer),
          peers = pre ++ p :: post → (∀ q ∈ pre, q.accepts = false) → p.accepts = true →
          pushSpaceToNode (.ok peers) none = (none, pre ++ [p]))
      ∧ ((pushSpaceToNode (.ok peers) none).1 ≠ none →
          (∀ q ∈ peers, q.accepts = false) ∧ (pushSpaceToNode (.ok peers) none).2 = peers)
      ∧ (∀ (e : String) (d : Option String), pushSpaceToNode (.error e) d = (some e, []))
      ∧ (∀ e : String, pushSpaceToNode (.ok peers) (some e) = (some e, []))
      ∧ (∀ d : Option String, pushSpaceToNode (.ok []) d = (none, [])) := by
  have hok := pushSpaceToNode_ok peers hne
  refine ⟨?_, ?_, ?_, ?_, ?_, ?_⟩
  · rw [hok]
    exact pushLoop_prefix peers
  · intro pre p post hsplit hpre hp
    rw [hok, hsplit, pushLoop_first pre p post hpre hp]
    rfl
  · intro hfail
    rw [hok] at hfail ⊢
    have hl : (pushLoop peers).1 = false := by
      cases h : (pushLoop peers).1
      · rfl
      · rw [h] at hfail; exact absurd rfl hfail
    have hall := (pushLoop_none peers).mp hl
    exact ⟨hall, pushLoop_all peers hall⟩
  · intro e d
    rfl
  · intro e
    have hl : ¬ peers.length = 0 := fun h => hne (List.length_eq_zero.mp h)
    unfold pushSpaceToNode
    simp [hl]
  · intro d
    rfl

/-- C11 as amended, at an unreachable peer followed by two accepting peers: the first two
are contacted, the third is not, and the result is success. -/
theorem C11_push_first_acceptance_witness :
    [deadPeer, goodPeer, goodPeer] ≠ []
      ∧ pushSpaceToNode (.ok [deadPeer, goodPeer, goodPeer]) none
          = (none, [deadPeer] ++ [goodPeer]) :=
  ⟨by decide,
    (C11_push_first_acceptance [deadPeer, goodPeer, goodPeer] (by decide)).2.1
      [deadPeer] goodPeer [goodPeer] rfl (by decide) (by decide)⟩

/-! ## Creating a space -/

/-- The failures of `BridgeCreateSpace` that happen before the space is opened leave the whole
state as it was. -/
theorem createSpace_early_failure (a : CreateAnswers) (w : World) (c : bridgeClient)
    (hc : w.gClient = some c) (hdemo : c.demoMode = false)
    (h : a.masterKeyFails = true ∨ a.metaKeyFails = true ∨ a.createSpace = none
          ∨ a.newSpaceFails = true ∨ a.initFails = true) :
    BridgeCreateSpace a w = ("", w) := by
  unfold BridgeCreateSpace
  rw [hc]
  simp only [hdemo]
  by_cases h1 : a.masterKeyFails = true
  · simp [h1]
  · by_cases h2 : a.metaKeyFails = true
    · simp [h1, h2]
    · cases h3 : a.createSpace with
      | none => simp [h1, h2]
      | some id =>
        by_cases h4 : a.newSpaceFails = true
        · simp [h1, h2, h4]
        · by_cases h5 : a.initFails = true
          · simp [h1, h2, h4, h5]
          · rw [h3] at h
            simp [h1, h2, h4, h5] at h

/-- The return after `kv == nil`, which needs `sp.KeyValue()` to be nil: there the space
handle has already been assigned. -/
theorem createSpace_nil_keyValue :
    (BridgeCreateSpace noKeyValue startedWorld).1 = ""
      ∧ ((BridgeCreateSpace noKeyValue startedWorld).2.gClient.map (fun c => c.space))
          = some (some "space-1") := by
  decide

/-- C12: when `sp.KeyValue()` is not nil, as for every space the engine opens, and the engine
issues non-empty identifiers, then whenever `BridgeCreateSpace` returns the empty identifier
the whole state, and with it the client's `space`, `store` and `kvSync`, is as before the
call; and every failure of key generation, `CreateSpace`, `NewSpace` or `Init` returns the
empty identifier in this way. -/
theorem C12_failure_leaves_no_space (a : CreateAnswers) (w : World)
    (hkv : a.keyValue.isSome = true) (hid : a.createSpace ≠ some "") :
    ((BridgeCreateSpace a w).1 = "" → (BridgeCreateSpace a w).2 = w)
      ∧ (∀ c : bridgeClient, w.gClient = some c → c.demoMode = false →
          (a.masterKeyFails = true ∨ a.metaKeyFails = true ∨ a.createSpace = none
            ∨ a.newSpaceFails = true ∨ a.initFails = true) →
          BridgeCreateSpace a w = ("", w)) := by
  refine ⟨?_, fun c hc hd hf => createSpace_early_failure a w c hc hd hf⟩
  intro hret
  cases hg : w.gClient with
  | none =>
    unfold BridgeCreateSpace
    rw [hg]
  | some c =>
    by_cases hd : c.demoMode = true
    · have hr : BridgeCreateSpace a w = ("demo-" ++ toString a.nanos, w) := by
        unfold BridgeCreateSpace
        rw [hg]
        simp [hd]
      rw [hr]
    · have hd2 : c.demoMode = false := by simpa using hd
      by_cases hf : a.masterKeyFails = true ∨ a.metaKeyFails = true ∨ a.createSpace = none
          ∨ a.newSpaceFails = true ∨ a.initFails = true
      · rw [createSpace_early_failure a w c hg hd2 hf]
      · simp only [not_or, Bool.not_eq_true] at hf
        obtain ⟨h1, h2, h3, h4, h5⟩ := hf
        cases hcs : a.createSpace with
        | none => exact absurd hcs h3
        | some id =>
          cases hk : a.keyValue with
          | none => rw [hk] at hkv; exact absurd hkv (by simp)
          | some kv =>
            have hr : (BridgeCreateSpace a w).1 = id := by
              unfold BridgeCreateSpace
              rw [hg]
              simp [hd2, h1, h2, h4, h5, hcs, hk]
            rw [hr] at hret
            rw [hret] at hcs
            exact absurd hcs hid

/-- C12 at a client outside demo mode and an engine whose `Init` fails. -/
theorem C12_failure_leaves_no_space_witness :
    ({ allOk with initFails := true } : CreateAnswers).keyValue.isSome = true
      ∧ ({ allOk with initFails := true } : CreateAnswers).createSpace ≠ some ""
      ∧ (BridgeCreateSpace { allOk with initFails := true } startedWorld).1 = ""
      ∧ (BridgeCreateSpace { allOk with initFails := true } startedWorld).2 = startedWorld :=
  ⟨rfl, by decide, by decide,
    (C12_failure_leaves_no_space { allOk with initFails := true } startedWorld rfl
      (by decide)).1 (by decide)⟩

/-! ## The last-sync time -/

theorem status_lastSyncMs (w : World) :
    (BridgeGetStatus w).lastSyncMs = (match w.lastSync with
                                      | some t => t
                                      | none => 0) := by
  unfold BridgeGetStatus World.lastSync
  cases w.gClient <;> rfl

theorem lastSync_of_client {w : World} {c : bridgeClient} (h : w.gClient = some c) :
    w.lastSync = c.lastSync := by
  unfold World.lastSync
  rw [h]

theorem processValue_lastSync (space : String) (dec : Decryptor) (w : World) (v : KeyValue) :
    (processValue space dec w v).lastSync = w.lastSync := by
  cases hg : w.gClient with
  | none => rw [processValue_no_client space dec w v hg]
  | some c =>
    by_cases hm : fingerprint v ∈ c.seen
    · rw [processValue_of_mem space dec w v (by rw [ledger_of_client hg]; exact hm)]
    · rw [lastSync_of_client (processValue_new space dec w c v hg hm).1, lastSync_of_client hg]

theorem processValues_lastSync (space : String) (dec : Decryptor) (vs : List KeyValue) :
    ∀ w : World, (processValues space dec w vs).lastSync = w.lastSync := by
  induction vs with
  | nil => intro w; rfl
  | cons v rest ih =>
    intro w
    rw [processValues_cons, ih, processValue_lastSync]

theorem scanStore_lastSync (space : String) (dec : Decryptor) (w : World)
    (entries : List (String × List KeyValue)) :
    (scanStore space dec w entries).lastSync = w.lastSync := by
  rw [scanStore_eq, processValues_lastSync]

theorem syncWithPeer_kvSync (inp : CycleInput) (c : bridgeClient) (p : String) :
    (syncWithPeer inp c p).kvSync = c.kvSync := by
  unfold syncWithPeer
  cases h : c.kvSync with
  | none => simp [h]
  | some s => by_cases hs : s.syncer <;> simp [hs, h]

theorem foldl_sync_syncer (inp : CycleInput) (s : KvService) (hs : s.syncer = true)
    (ps : List String) :
    ∀ c : bridgeClient, c.kvSync = some s →
      (ps.foldl (syncWithPeer inp) c).lastSync = if ps = [] then c.lastSync else some inp.now := by
  induction ps with
  | nil => intro c _; rfl
  | cons p ps ih =>
    intro c hc
    have hk : (syncWithPeer inp c p).kvSync = some s := by rw [syncWithPeer_kvSync, hc]
    have hl : (syncWithPeer inp c p).lastSync = some inp.now := by
      unfold syncWithPeer
      rw [hc]
      simp [hs]
    rw [List.foldl_cons, ih _ hk, hl]
    simp

theorem foldl_sync_plain (inp : CycleInput) (ps : List String) :
    ∀ c : bridgeClient, (∀ s, c.kvSync = some s → s.syncer = false) →
      ps.foldl (syncWithPeer inp) c = c := by
  induction ps with
  | nil => intro c _; rfl
  | cons p ps ih =>
    intro c hc
    have hstep : syncWithPeer inp c p = c := by
      unfold syncWithPeer
      cases h : c.kvSync with
      | none => rfl
      | some s => simp [hc s h]
    rw [List.foldl_cons, hstep, ih c hc]

/-- The sync of a cycle stores the clock in `lastSync` exactly when it calls `SyncWithPeer`
at least once, whatever those calls return. -/
theorem opportunisticSync_lastSync (c : bridgeClient) (inp : CycleInput) :
    (opportunisticSync c inp).lastSync
      = if syncCalls c inp = [] then c.lastSync else some inp.now := by
  unfold opportunisticSync syncCalls
  by_cases hcond : c.space.isSome ∧ c.kvSync.isSome
  · simp only [hcond, and_self, if_true]
    cases hp : inp.peers with
    | none => simp
    | some peers =>
      simp only
      cases hk : c.kvSync with
      | none => rw [hk] at hcond; simp at hcond
      | some s =>
        by_cases hs : s.syncer = true
        · rw [foldl_sync_syncer inp s hs peers _ rfl]
          simp [hs]
        · have hs2 : s.syncer = false := by simpa using hs
          rw [foldl_sync_plain inp peers _ (by
            intro s2 h2
            have h3 : s = s2 := Option.some.inj h2
            rw [← h3, hs2])]
          simp [hs2]
  · simp [hcond]

theorem createSpace_lastSync (a : CreateAnswers) (w : World) :
    (BridgeCreateSpace a w).2.lastSync = w.lastSync := by
  unfold BridgeCreateSpace
  cases hg : w.gClient with
  | none => rfl
  | some c =>
    simp only
    split
    · rfl
    · split
      · rfl
      · split
        · rfl
        · split
          · rfl
          · split
            · rfl
            · split
              · rfl
              · split <;> simp [World.lastSync, hg]

theorem joinSpace_lastSync (a : JoinAnswers) (w : World) (spaceId : String) (r : Int × World)
    (h : BridgeJoinSpace a w spaceId = some r) : r.2.lastSync = w.lastSync := by
  unfold BridgeJoinSpace at h
  cases hg : w.gClient with
  | none =>
    rw [hg] at h
    simp only [Option.some.injEq] at h
    rw [← h]
  | some c =>
    rw [hg] at h
    simp only at h
    split at h
    · simp only [Option.some.injEq] at h; rw [← h]
    · split at h
      · simp only [Option.some.injEq] at h; rw [← h]
      · split at h
        · simp only [Option.some.injEq] at h; rw [← h]
        · split at h
          · exact absurd h (by simp)
          · simp only [Option.some.injEq] at h
            rw [← h]
            simp [World.lastSync, hg]

theorem sendOperation_gClient (unmarshalOk : String → Bool) (setOk : String → String → Bool)
    (w : World) (spaceId operationJson : String) :
    (BridgeSendOperation unmarshalOk setOk w spaceId operationJson).2.gClient = w.gClient := by
  unfold BridgeSendOperation
  cases hg : w.gClient with
  | none => simp [hg]
  | some c =>
    simp only
    split
    · simp [hg]
    · split
      · simp [hg]
      · split
        · simp [hg]
        · split <;> simp [hg]

theorem startClient_lastSync (demoEnv startFails : Bool) (w : World) (host : String) (port : Int)
    (network : String) (h : w.lastSync = none) :
    (BridgeInitializeClient demoEnv startFails w host port network).2.lastSync = none := by
  unfold BridgeInitializeClient
  split
  · rfl
  · split
    · exact h
    · rfl

/-- An event that makes no call of `SyncWithPeer` leaves an unset last-sync time unset. -/
theorem exec_lastSync (w w1 : World) (e : Event) (hexec : exec w e = some w1)
    (hno : eventSyncCalls w e = []) (h : w.lastSync = none) : w1.lastSync = none := by
  cases e with
  | startClient demoEnv startFails host port network =>
    simp only [exec, Option.some.injEq] at hexec
    rw [← hexec]
    exact startClient_lastSync demoEnv startFails w host port network h
  | createSpace a =>
    simp only [exec, Option.some.injEq] at hexec
    rw [← hexec, createSpace_lastSync, h]
  | joinSpace a spaceId =>
    simp only [exec] at hexec
    cases hj : BridgeJoinSpace a w spaceId with
    | none => rw [hj] at hexec; exact absurd hexec (by simp)
    | some r =>
      rw [hj] at hexec
      simp only [Option.map_some', Option.some.injEq] at hexec
      rw [← hexec, joinSpace_lastSync a w spaceId r hj, h]
  | sendOperation unmarshalOk setOk spaceId operationJson =>
    simp only [exec, Option.some.injEq] at hexec
    rw [← hexec]
    unfold World.lastSync at h ⊢
    rw [sendOperation_gClient]
    exact h
  | setCallback spaceId callback =>
    simp only [exec, Option.some.injEq] at hexec
    rw [← hexec]
    exact h
  | startListening spaceId =>
    simp only [exec, Option.some.injEq] at hexec
    rw [← hexec]
    exact h
  | pollOperation spaceId =>
    simp only [exec, Option.some.injEq] at hexec
    rw [← hexec]
    unfold World.lastSync at h ⊢
    rw [(poll_frame w spaceId).1]
    exact h
  | getStatus =>
    simp only [exec, Option.some.injEq] at hexec
    rw [← hexec]
    exact h
  | cycle space dec inp =>
    simp only [exec, Option.some.injEq] at hexec
    rw [← hexec]
    have hs := scanStore_lastSync space dec w inp.entries
    simp only [eventSyncCalls] at hno
    unfold pollCycle syncStep
    cases hg : (scanStore space dec w inp.entries).gClient with
    | none =>
      simp only
      rw [← hs] at h
      exact h
    | some c =>
      rw [hg] at hno
      simp only at hno
      have hc : c.lastSync = none := by
        rw [← lastSync_of_client hg, hs, h]
      simp only [World.lastSync]
      rw [opportunisticSync_lastSync, if_pos hno, hc]

theorem run_lastSync (events : List Event) :
    ∀ (w w1 : World), run w events = some w1 → runSyncCalls w events = [] →
      w.lastSync = none → w1.lastSync = none := by
  induction events with
  | nil =>
    intro w w1 hrun _ h
    simp only [run, Option.some.injEq] at hrun
    rw [← hrun]
    exact h
  | cons e rest ih =>
    intro w w1 hrun hno h
    simp only [run] at hrun
    simp only [runSyncCalls] at hno
    cases he : exec w e with
    | none => rw [he] at hrun; exact absurd hrun (by simp)
    | some w2 =>
      rw [he] at hrun hno
      simp only at hrun hno
      have hno2 := List.append_eq_nil.mp hno
      exact ih w2 w1 hrun hno2.2 (exec_lastSync w w2 e he hno2.1 h)

/-- C13 refuted: after starting the client, creating a space and one cycle whose only call
of `SyncWithPeer` returns an error, `BridgeGetStatus` reports the time of that call, not 0. -/
theorem C13_failed_sync_recorded :
    runSyncCalls World.init failedSyncRun = [("n1", true)]
      ∧ (run World.init failedSyncRun).map (fun w => (BridgeGetStatus w).lastSyncMs)
          = some 1700000000000 := by
  decide

/-- C13 as amended: in every state reached from process start without any call of
`SyncWithPeer`, `BridgeGetStatus` reports `lastSyncMs = 0`; and the sync of a cycle stores the
clock as last-sync time exactly when it calls `SyncWithPeer` at least once, whether or not
those calls return an error. -/
theorem C13_last_sync_on_invocation (events : List Event) (w1 : World)
    (hrun : run World.init events = some w1)
    (hno : runSyncCalls World.init events = []) :
    (BridgeGetStatus w1).lastSyncMs = 0
      ∧ (∀ (c : bridgeClient) (inp : CycleInput),
          (opportunisticSync c inp).lastSync
            = if syncCalls c inp = [] then c.lastSync else some inp.now) := by
  refine ⟨?_, opportunisticSync_lastSync⟩
  rw [status_lastSyncMs, run_lastSync events World.init w1 hrun hno rfl]

/-- C13 as amended, at a run with one cycle in which `GetNodePeers` fails. -/
theorem C13_last_sync_on_invocation_witness :
    run World.init noSyncRun = some noSyncEnd
      ∧ runSyncCalls World.init noSyncRun = []
      ∧ (BridgeGetStatus noSyncEnd).lastSyncMs = 0 :=
  ⟨rfl, by decide, (C13_last_sync_on_invocation noSyncRun noSyncEnd rfl (by decide)).1⟩

end AnysyncBridge
